import Mathlib

/-!
# SafeAlter — verification of the detection-and-cross-validation engine

Shallow embedding of `src/safealter.py` (and the `Config`/`filter_violations`
part of the repository that is imported by `src/main.py` and the tests but
absent from the provided sources; that part is modelled from the spec).

Text is modelled as `List Char`.  Python `re` patterns are embedded as
specialised matching functions on `List Char`; each matcher's doc comment
cites the pattern it embeds.  The patterns used by the code are simple
enough that greedy maximal-munch submatching is exact for them: every
`\w+` is followed by a requirement that can only be met by a non-word
character, every `\s+` by one that can only be met by a non-space
character, so the backtracking engine and the maximal-munch matcher accept
the same strings (this is noted where it matters).  Python's `\w` is
modelled as ASCII alphanumerics plus underscore, `\s` as ASCII whitespace;
all identifiers handled by the tool are ASCII.
-/

set_option maxRecDepth 4096

/-- Convert a string literal to the `List Char` text representation. -/
def str (s : String) : List Char := s.data

/-- Python `\w` (ASCII): letter, digit or underscore. -/
def isWordChar (c : Char) : Bool := c.isAlphanum || c == '_'

/-- Python `\s` (ASCII): the six whitespace characters. -/
def isSpaceChar (c : Char) : Bool :=
  c == ' ' || c == '\t' || c == '\n' || c == '\r' || c == '\x0b' || c == '\x0c'

/-- Case-insensitive character comparison, as under `re.I`. -/
def ciEqc (a b : Char) : Bool := a.toLower == b.toLower

/-- Consume a literal pattern case-insensitively (`re.I` literal text).
Returns the rest of the input on success. -/
def eatCI : List Char → List Char → Option (List Char)
  | [], s => some s
  | _ :: _, [] => none
  | p :: ps, c :: cs => if ciEqc p c then eatCI ps cs else none

/-- Consume a literal pattern case-sensitively. -/
def eatCS : List Char → List Char → Option (List Char)
  | [], s => some s
  | _ :: _, [] => none
  | p :: ps, c :: cs => if p == c then eatCS ps cs else none

/-- `\s+`: at least one whitespace character, maximal munch. -/
def sp1 : List Char → Option (List Char)
  | [] => none
  | c :: cs => if isSpaceChar c then some (cs.dropWhile isSpaceChar) else none

/-- `\s*`: any whitespace, maximal munch. -/
def sp0 (s : List Char) : List Char := s.dropWhile isSpaceChar

/-- An optional single character from a class, e.g. ``[`"']?``: consumed
when present.  (In every pattern of the source the class characters are
non-word characters and the next pattern element requires a word or
whitespace character, so greedy consumption is exact.) -/
def eatOptCl (cl : List Char) (s : List Char) : List Char :=
  match s with
  | [] => []
  | c :: cs => if cl.contains c then cs else s

/-- `(\w+)`: capture one or more word characters, maximal munch. -/
def eatWord1 (s : List Char) : Option (List Char × List Char) :=
  let w := s.takeWhile isWordChar
  if w.isEmpty then none else some (w, s.dropWhile isWordChar)

/-- The identifier-quoting class ``[`"']`` used by the DDL rules. -/
def ddlQuotes : List Char := ['`', '"', '\'']

/-! ## DDL rule matchers (`DDL_RULES` in `src/safealter.py`)

Each `ruleNAt` tries to match the rule's pattern at the start of the
input, returning the captured groups and the rest of the input after the
match.  None of the DDL patterns contains `\b`, so no left-context is
needed. -/

/-- Tail of rules 1, 2, 4, 5 after an already-consumed prefix: an
optionally quoted captured identifier: ``[`"']?(\w+)``. -/
def quotedWord (s : List Char) : Option (List Char × List Char) :=
  eatWord1 (eatOptCl ddlQuotes s)

/-- ``ALTER\s+TABLE\s+[`"']?(\w+)[`"']?\s+`` — the common head of rules
1, 2, 4 and 5.  Returns the captured table name and the rest. -/
def alterTableHead (s : List Char) : Option (List Char × List Char) := do
  let s ← eatCI (str "ALTER") s
  let s ← sp1 s
  let s ← eatCI (str "TABLE") s
  let s ← sp1 s
  let (t, s) ← quotedWord s
  let s := eatOptCl ddlQuotes s
  let s ← sp1 s
  some (t, s)

/-- Rule `drop_column`:
``ALTER\s+TABLE\s+[`"']?(\w+)[`"']?\s+DROP\s+(?:COLUMN\s+)?[`"']?(\w+)``
(case-insensitive).  The optional group is tried greedily first, exactly
as the backtracking engine does. -/
def rule1At (s : List Char) : Option ((List Char × List Char) × List Char) := do
  let (t, s) ← alterTableHead s
  let s ← eatCI (str "DROP") s
  let s ← sp1 s
  let withCol : Option ((List Char × List Char) × List Char) := do
    let s' ← eatCI (str "COLUMN") s
    let s' ← sp1 s'
    let (c, s') ← quotedWord s'
    some ((t, c), s')
  withCol <|> (do
    let (c, s') ← quotedWord s
    some ((t, c), s'))

/-- Rule `rename_column`:
``ALTER\s+TABLE\s+[`"']?(\w+)[`"']?\s+RENAME\s+COLUMN\s+[`"']?(\w+)``. -/
def rule2At (s : List Char) : Option ((List Char × List Char) × List Char) := do
  let (t, s) ← alterTableHead s
  let s ← eatCI (str "RENAME") s
  let s ← sp1 s
  let s ← eatCI (str "COLUMN") s
  let s ← sp1 s
  let (c, s) ← quotedWord s
  some ((t, c), s)

/-- Rule `drop_table`:
``DROP\s+TABLE\s+(?:IF\s+EXISTS\s+)?[`"']?(\w+)`` — one capture group. -/
def rule3At (s : List Char) : Option (List Char × List Char) := do
  let s ← eatCI (str "DROP") s
  let s ← sp1 s
  let s ← eatCI (str "TABLE") s
  let s ← sp1 s
  let withIf : Option (List Char × List Char) := do
    let s' ← eatCI (str "IF") s
    let s' ← sp1 s'
    let s' ← eatCI (str "EXISTS") s'
    let s' ← sp1 s'
    quotedWord s'
  withIf <|> quotedWord s

/-- The negative lookahead ``(?![^;]*?DEFAULT)`` of rule 4: does some
semicolon-free prefix of the input end right before `DEFAULT`?  (Laziness
is irrelevant for the existence check a lookahead performs.) -/
def lookDefault : List Char → Bool
  | [] => false
  | c :: cs => (eatCI (str "DEFAULT") (c :: cs)).isSome || (c != ';' && lookDefault cs)

/-- ``NOT\s+NULL(?![^;]*?DEFAULT)`` tried at the current position: part of
rule 4.  Fails when the lookahead finds a `DEFAULT`. -/
def tryNN (s : List Char) : Option (List Char) := do
  let s ← eatCI (str "NOT") s
  let s ← sp1 s
  let s ← eatCI (str "NULL") s
  if lookDefault s then none else some s

/-- The lazy search ``[^;]*?NOT\s+NULL(?!...)`` of rule 4: starting from
the current position, find the first occurrence of `NOT\s+NULL` whose
lookahead passes, never stepping over a `;`.  (The lazy quantifier grows
the gap minimally and retries on lookahead failure, which is exactly this
scan.) -/
def scanNN : List Char → Option (List Char)
  | [] => none
  | c :: cs =>
    match tryNN (c :: cs) with
    | some r => some r
    | none => if c == ';' then none else scanNN cs

/-- Backtracking of the greedy `\w+` of rule 4's tail: try the split
points `k, k-1, …, 1` inside the word run, testing `NOT\s+NULL(?!…)`
right at each split (positions past the run were already tried by the
lazy gap). -/
def backScan (s : List Char) : Nat → Option (List Char)
  | 0 => none
  | k + 1 =>
    match tryNN (s.drop (k + 1)) with
    | some r => some r
    | none => backScan s k

/-- ``\w+[^;]*?NOT\s+NULL(?![^;]*?DEFAULT)`` — the tail of rule 4.
Python first takes the maximal word run for the greedy `\w+` and lets the
lazy ``[^;]*?`` find the earliest passing `NOT\s+NULL` after it; only if
that fails does it backtrack `\w+` to shorter runs, whose only new
candidate positions are the split points inside the word run (word
characters are never `;`, so the `[^;]*?` gap never blocks there). -/
def rule4Tail (s : List Char) : Option (List Char) :=
  let n := (s.takeWhile isWordChar).length
  if n = 0 then none else
  match scanNN (s.drop n) with
  | some r => some r
  | none => backScan s (n - 1)

/-- The part of rule 4 after the optional `COLUMN` group:
``[`"']?(\w+)[`"']?\s+\w+[^;]*?NOT\s+NULL(?![^;]*?DEFAULT)``. -/
def rule4Col (t : List Char) (s : List Char) :
    Option ((List Char × List Char) × List Char) := do
  let (c, s') ← quotedWord s
  let s' := eatOptCl ddlQuotes s'
  let s' ← sp1 s'
  let r ← rule4Tail s'
  some ((t, c), r)

/-- Rule `not_null_no_default`:
``ALTER\s+TABLE\s+[`"']?(\w+)[`"']?\s+ADD\s+(?:COLUMN\s+)?[`"']?(\w+)[`"']?\s+\w+[^;]*?NOT\s+NULL(?![^;]*?DEFAULT)``.
The optional group is tried greedily first, with the whole continuation,
exactly as the backtracking engine does. -/
def rule4At (s : List Char) : Option ((List Char × List Char) × List Char) := do
  let (t, s) ← alterTableHead s
  let s ← eatCI (str "ADD") s
  let s ← sp1 s
  (do
    let s' ← eatCI (str "COLUMN") s
    let s' ← sp1 s'
    rule4Col t s') <|> rule4Col t s

/-- Rule `change_type`:
``ALTER\s+TABLE\s+[`"']?(\w+)[`"']?\s+ALTER\s+COLUMN\s+[`"']?(\w+)[`"']?\s+(?:SET\s+DATA\s+)?TYPE``. -/
def rule5At (s : List Char) : Option ((List Char × List Char) × List Char) := do
  let (t, s) ← alterTableHead s
  let s ← eatCI (str "ALTER") s
  let s ← sp1 s
  let s ← eatCI (str "COLUMN") s
  let s ← sp1 s
  let (c, s) ← quotedWord s
  let s := eatOptCl ddlQuotes s
  let s ← sp1 s
  let withSet : Option ((List Char × List Char) × List Char) := do
    let s' ← eatCI (str "SET") s
    let s' ← sp1 s'
    let s' ← eatCI (str "DATA") s'
    let s' ← sp1 s'
    let s' ← eatCI (str "TYPE") s'
    some ((t, c), s')
  withSet <|> (do
    let s' ← eatCI (str "TYPE") s
    some ((t, c), s'))

/-- `pat.finditer(line)` for patterns without `\b` and without empty-width
matches: scan left to right, emit each leftmost match, resume after its
end.  (All patterns here consume at least one character, so the
empty-match advance rule of Python never fires, and a match is never
possible at the very end of the input.) -/
def finditerF (m : List Char → Option (γ × List Char)) : Nat → List Char → List γ
  | 0, _ => []
  | _ + 1, [] => []
  | fuel + 1, c :: rest =>
    match m (c :: rest) with
    | some (g, r) =>
      g :: (if r.length < rest.length + 1 then finditerF m fuel r else finditerF m fuel rest)
    | none => finditerF m fuel rest

/-- The fuel `s.length` never runs out: every match of the patterns here
consumes at least one character, so the remaining fuel always bounds the
remaining input length (`finditerF_congr` below makes this exact). -/
def finditer (m : List Char → Option (γ × List Char)) (s : List Char) : List γ :=
  finditerF m s.length s

/-! ## Lines, data model, migration parsing -/

/-- Python `str.splitlines` for `\n`-separated text (the tool's inputs are
`\n`-separated; the other Unicode line breaks never occur in them).
`splitlines "" = []` and a trailing newline produces no trailing empty
line, as in Python. -/
def splitlinesGo (cur : List Char) : List Char → List (List Char)
  | [] => [cur.reverse]
  | c :: cs =>
    if c == '\n' then cur.reverse :: (if cs.isEmpty then [] else splitlinesGo [] cs)
    else splitlinesGo (c :: cur) cs

def splitlines (s : List Char) : List (List Char) :=
  if s.isEmpty then [] else splitlinesGo [] s

/-- `enumerate(xs, n)`. -/
def enumFrom (n : Nat) : List α → List (Nat × α)
  | [] => []
  | x :: xs => (n, x) :: enumFrom (n + 1) xs

/-- `SchemaChange` dataclass. -/
structure SchemaChange where
  kind : List Char
  table : List Char
  column : List Char := []
  file : List Char := []
  line : Nat := 0
  severity : List Char := str "error"
deriving DecidableEq, Repr

/-- `Violation` dataclass. -/
structure Violation where
  kind : List Char
  table : List Char
  column : List Char
  migration_file : List Char
  migration_line : Nat
  code_file : List Char
  code_line : Nat
  snippet : List Char
  severity : List Char := str "error"
deriving DecidableEq, Repr

/-- `CodeReference` dataclass. -/
structure CodeReference where
  file_path : List Char
  line_number : Nat
  line_content : List Char
  ref_type : List Char
  name : List Char
deriving DecidableEq, Repr

/-- `CrossValidationResult` dataclass. -/
structure CrossValidationResult where
  affected_file : List Char
  line_number : Nat
  column_name : List Char
  table_name : List Char
  migration_statement : List Char
  risk_level : List Char
deriving DecidableEq, Repr

/-- The changes one rule's matches contribute (`SchemaChange(kind, m.group(1), col, filename, lineno, sev)`). -/
def ruleChanges (kind sev fname : List Char) (lineno : Nat)
    (ms : List (List Char × List Char)) : List SchemaChange :=
  ms.map fun m => ⟨kind, m.1, m.2, fname, lineno, sev⟩

/-- `parse_migrations(sql, filename)`: per line, each rule of `DDL_RULES`
in order contributes one `SchemaChange` per regex match; `drop_table` has
a single capture group, so its column is `""` (`m.lastindex >= 2` fails). -/
def parse_migrations (sql : List Char) (filename : List Char) : List SchemaChange :=
  (enumFrom 1 (splitlines sql)).flatMap fun p =>
    ruleChanges (str "drop_column") (str "error") filename p.1 (finditer rule1At p.2)
    ++ ruleChanges (str "rename_column") (str "error") filename p.1 (finditer rule2At p.2)
    ++ (finditer rule3At p.2).map
        (fun t => ⟨str "drop_table", t, [], filename, p.1, str "error"⟩)
    ++ ruleChanges (str "not_null_no_default") (str "warning") filename p.1
        (finditer rule4At p.2)
    ++ ruleChanges (str "change_type") (str "warning") filename p.1 (finditer rule5At p.2)

/-! ## `find_violations` -/

/-- `target = change.column if change.column else change.table`. -/
def targetOf (ch : SchemaChange) : List Char :=
  if ch.column.isEmpty then ch.table else ch.column

/-- Python `str.strip()`. -/
def stripWs (s : List Char) : List Char :=
  (((s.dropWhile isSpaceChar).reverse).dropWhile isSpaceChar).reverse

/-- Does `t` match at this position with a trailing word boundary, i.e.
`t` case-insensitively and then end-of-line or a non-word character?
Part of the embedding of `re.compile(r'\b' + re.escape(target) + r'\b', re.I).search`
for a target consisting of word characters. -/
def wbMatchAt (t s : List Char) : Bool :=
  match eatCI t s with
  | none => false
  | some [] => true
  | some (d :: _) => !isWordChar d

/-- Scan for a whole-word occurrence, tracking whether the previous
character was a word character (the leading `\b`). -/
def wordSearchAux (t : List Char) (prevW : Bool) : List Char → Bool
  | [] => false
  | c :: cs => (!prevW && wbMatchAt t (c :: cs)) || wordSearchAux t (isWordChar c) cs

/-- `re.compile(r'\b' + re.escape(target) + r'\b', re.I).search(line)` for
a nonempty all-word-character target (the shape every captured identifier
has; the theorems about it carry that hypothesis). -/
def wordSearchCI (t line : List Char) : Bool := wordSearchAux t false line

/-- `find_violations(changes, code_files)` from `src/safealter.py`:
for every change with a nonempty target, every line of every code file
containing the target as a whole word (case-insensitively) yields one
`Violation`.  The dict of file contents is modelled as an association
list in insertion order. -/
def find_violations (changes : List SchemaChange)
    (code_files : List (List Char × List Char)) : List Violation :=
  changes.flatMap fun change =>
    let target := targetOf change
    if target.isEmpty then [] else
    code_files.flatMap fun fc =>
      (enumFrom 1 (splitlines fc.2)).filterMap fun p =>
        if wordSearchCI target p.2 then
          some { kind := change.kind, table := change.table, column := change.column
                 migration_file := change.file, migration_line := change.line
                 code_file := fc.1, code_line := p.1, snippet := stripWs p.2
                 severity := change.severity }
        else none

/-! ## Case-insensitive containment and the spec-side notions for C1 -/

/-- `p` matches at the very start of `s`, case-insensitively. -/
def leadsCI (p s : List Char) : Bool := (eatCI p s).isSome

/-- `p` occurs somewhere in `s`, case-insensitively (plain substring). -/
def substrCI : List Char → List Char → Bool
  | p, [] => leadsCI p []
  | p, c :: cs => leadsCI p (c :: cs) || substrCI p cs

/-- Pointwise case-insensitive equality of two character lists. -/
def ciListEq : List Char → List Char → Bool
  | [], [] => true
  | a :: as, b :: bs => ciEqc a b && ciListEq as bs
  | _, _ => false

/-- Spec-side notion (C1): the seven keywords of the extraction gate
(`_SQL_KW`). -/
def spec_sqlKeywords : List (List Char) :=
  [str "SELECT", str "INSERT", str "UPDATE", str "DELETE", str "FROM",
   str "JOIN", str "WHERE"]

/-- Spec-side notion (C1), following the spec's words: the
looks-like-SQL gate — a SQL keyword present in the line, or a SQL file
extension, or a quote character in the line. -/
def spec_lineLooksSQL (fname line : List Char) : Bool :=
  spec_sqlKeywords.any (fun kw => wordSearchCI kw line)
  || (str ".sql").isSuffixOf fname
  || line.contains '\''
  || line.contains '"'

/-- Spec-side notion (C1), following the spec's words: the owning table
name appears somewhere in the file (full-file scan). -/
def spec_tableInFile (table content : List Char) : Bool := substrCI table content

/-- Spec-side notion (C9): `t` occurs in `line` as a whole word, modulo
case — a case-insensitive copy of `t` with no word character adjacent on
either side. -/
def WholeWordOccurs (t line : List Char) : Prop :=
  ∃ pre mid post, line = pre ++ mid ++ post ∧ ciListEq mid t = true ∧
    (∀ d, pre.getLast? = some d → isWordChar d = false) ∧
    (∀ d, post.head? = some d → isWordChar d = false)

/-! ## Lemmas: the word-boundary scanner agrees with `WholeWordOccurs` -/

theorem eatCI_some_iff (t : List Char) :
    ∀ s r, eatCI t s = some r ↔ ∃ m, s = m ++ r ∧ ciListEq m t = true := by
  induction t with
  | nil =>
    intro s r
    constructor
    · intro h
      simp [eatCI] at h
      exact ⟨[], by simp [h], rfl⟩
    · rintro ⟨m, rfl, hm⟩
      cases m with
      | nil => simp [eatCI]
      | cons a as => simp [ciListEq] at hm
  | cons p ps ih =>
    intro s r
    constructor
    · intro h
      cases s with
      | nil => simp [eatCI] at h
      | cons c cs =>
        simp only [eatCI] at h
        by_cases hc : ciEqc p c
        · simp [hc] at h
          obtain ⟨m, rfl, hm⟩ := (ih cs r).mp h
          exact ⟨c :: m, rfl, by simp [ciListEq, hm]; unfold ciEqc at hc ⊢; simp at hc; simp [hc]⟩
        · simp [hc] at h
    · rintro ⟨m, rfl, hm⟩
      cases m with
      | nil => simp [ciListEq] at hm
      | cons a as =>
        simp only [ciListEq, Bool.and_eq_true] at hm
        have hac : ciEqc p a := by unfold ciEqc at hm ⊢; simp at hm ⊢; exact hm.1.symm
        simpa [eatCI, hac] using (ih (as ++ r) r).mpr ⟨as, rfl, hm.2⟩

theorem ciListEq_length {m t : List Char} (h : ciListEq m t = true) :
    m.length = t.length := by
  induction m generalizing t with
  | nil => cases t with
    | nil => rfl
    | cons b bs => simp [ciListEq] at h
  | cons a as ih =>
    cases t with
    | nil => simp [ciListEq] at h
    | cons b bs =>
      simp only [ciListEq, Bool.and_eq_true] at h
      simpa using ih h.2

theorem wbMatchAt_iff (t s : List Char) :
    wbMatchAt t s = true ↔ ∃ mid post, s = mid ++ post ∧ ciListEq mid t = true ∧
      (∀ d, post.head? = some d → isWordChar d = false) := by
  unfold wbMatchAt
  cases h : eatCI t s with
  | none =>
    simp only [Bool.false_eq_true, false_iff]
    rintro ⟨mid, post, rfl, hm, _⟩
    have := (eatCI_some_iff t (mid ++ post) post).mpr ⟨mid, rfl, hm⟩
    simp [this] at h
  | some r =>
    obtain ⟨m, rfl, hm⟩ := (eatCI_some_iff t (s := _) r).mp h
    constructor
    · intro hw
      refine ⟨m, r, rfl, hm, ?_⟩
      intro d hd
      cases r with
      | nil => simp at hd
      | cons d' r' => simp at hd; subst hd; simpa using hw
    · rintro ⟨mid, post, heq, hmid, hpost⟩
      have hlen : mid.length = m.length := by
        rw [ciListEq_length hmid, ciListEq_length hm]
      have hmm : mid = m ∧ post = r := by
        constructor
        · have := congrArg (List.take m.length) heq
          simpa [List.take_left', hlen.symm] using this.symm
        · have := congrArg (List.drop m.length) heq
          simpa [List.drop_left', hlen.symm] using this.symm
      obtain ⟨rfl, rfl⟩ := hmm
      cases post with
      | nil => rfl
      | cons d' r' => simpa using hpost d' rfl

theorem wordSearchAux_iff (t : List Char) (ht : t ≠ []) :
    ∀ (s : List Char) (prevW : Bool), wordSearchAux t prevW s = true ↔
      ∃ pre mid post, s = pre ++ mid ++ post ∧ ciListEq mid t = true ∧
        ((pre = [] ∧ prevW = false) ∨ (∃ d, pre.getLast? = some d ∧ isWordChar d = false)) ∧
        (∀ d, post.head? = some d → isWordChar d = false) := by
  intro s
  induction s with
  | nil =>
    intro prevW
    simp only [wordSearchAux, Bool.false_eq_true, false_iff]
    rintro ⟨pre, mid, post, heq, hm, _, _⟩
    have hlen := congrArg List.length heq
    simp at hlen
    have : mid = [] := List.eq_nil_of_length_eq_zero (by omega)
    subst this
    cases t with
    | nil => exact ht rfl
    | cons a as => simp [ciListEq] at hm
  | cons c cs ih =>
    intro prevW
    simp only [wordSearchAux, Bool.or_eq_true, Bool.and_eq_true]
    constructor
    · rintro (⟨hpw, hwb⟩ | hrec)
      · obtain ⟨mid, post, heq, hm, hpost⟩ := (wbMatchAt_iff t (c :: cs)).mp hwb
        exact ⟨[], mid, post, by simpa using heq, hm,
          Or.inl ⟨rfl, by simpa using hpw⟩, hpost⟩
      · obtain ⟨pre, mid, post, heq, hm, hb, hpost⟩ := (ih (isWordChar c)).mp hrec
        refine ⟨c :: pre, mid, post, by simp [heq], hm, ?_, hpost⟩
        rcases hb with ⟨rfl, hw⟩ | ⟨d, hd, hdw⟩
        · exact Or.inr ⟨c, by simp, hw⟩
        · refine Or.inr ⟨d, ?_, hdw⟩
          cases pre with
          | nil => simp at hd
          | cons p ps => simpa using hd
    · rintro ⟨pre, mid, post, heq, hm, hb, hpost⟩
      cases pre with
      | nil =>
        left
        rcases hb with ⟨_, hpw⟩ | ⟨d, hd, _⟩
        · exact ⟨by simp [hpw], (wbMatchAt_iff t (c :: cs)).mpr ⟨mid, post, by simpa using heq, hm, hpost⟩⟩
        · simp at hd
      | cons p ps =>
        right
        simp only [List.cons_append] at heq
        obtain ⟨rfl, heq2⟩ := List.cons_eq_cons.mp heq
        refine (ih (isWordChar c)).mpr ⟨ps, mid, post, heq2, hm, ?_, hpost⟩
        rcases hb with ⟨hne, _⟩ | ⟨d, hd, hdw⟩
        · exact absurd hne (by simp)
        · cases ps with
          | nil =>
            simp at hd
            subst hd
            exact Or.inl ⟨rfl, by simpa using hdw⟩
          | cons q qs => exact Or.inr ⟨d, by simpa using hd, hdw⟩

/-- The scanner `wordSearchCI` recognizes exactly the whole-word
case-insensitive occurrences. -/
theorem wordSearchCI_iff (t line : List Char) (ht : t ≠ []) :
    wordSearchCI t line = true ↔ WholeWordOccurs t line := by
  unfold wordSearchCI WholeWordOccurs
  rw [wordSearchAux_iff t ht line false]
  constructor
  · rintro ⟨pre, mid, post, heq, hm, hb, hpost⟩
    refine ⟨pre, mid, post, heq, hm, ?_, hpost⟩
    intro d hd
    rcases hb with ⟨rfl, _⟩ | ⟨d', hd', hdw'⟩
    · simp at hd
    · rw [hd'] at hd
      cases hd
      exact hdw'
  · rintro ⟨pre, mid, post, heq, hm, hb, hpost⟩
    refine ⟨pre, mid, post, heq, hm, ?_, hpost⟩
    cases hpre : pre.getLast? with
    | none =>
      left
      exact ⟨by simpa using hpre, rfl⟩
    | some d => exact Or.inr ⟨d, rfl, hb d hpre⟩

/-! ## Lemmas about `enumFrom`, `splitlines` and `find_violations` -/

theorem mem_enumFrom (x : α) : ∀ (xs : List α) (k n : Nat),
    (n, x) ∈ enumFrom k xs ↔ (k ≤ n ∧ xs.get? (n - k) = some x) := by
  intro xs
  induction xs with
  | nil => intro k n; simp [enumFrom]
  | cons y ys ih =>
    intro k n
    simp only [enumFrom, List.mem_cons, Prod.mk.injEq]
    rw [ih (k + 1) n]
    constructor
    · rintro (⟨rfl, rfl⟩ | ⟨hk, hg⟩)
      · simp
      · refine ⟨by omega, ?_⟩
        have hnk : n - k = (n - (k + 1)) + 1 := by omega
        rw [hnk]
        simpa using hg
    · rintro ⟨hk, hg⟩
      rcases Nat.eq_or_lt_of_le hk with rfl | hlt
      · simp at hg
        exact Or.inl ⟨rfl, hg.symm⟩
      · right
        refine ⟨by omega, ?_⟩
        have hnk : n - k = (n - (k + 1)) + 1 := by omega
        rw [hnk] at hg
        simpa using hg

theorem length_filterMap_enum (g : Nat × List Char → Violation) (q : List Char → Bool) :
    ∀ (xs : List (List Char)) (k : Nat),
      ((enumFrom k xs).filterMap
        (fun p => if q p.2 then some (g p) else none)).length = xs.countP q := by
  intro xs
  induction xs with
  | nil => intro k; simp [enumFrom]
  | cons y ys ih =>
    intro k
    by_cases hq : q y
    · simp [enumFrom, List.filterMap_cons, hq, ih (k + 1), List.countP_cons]
    · simp [enumFrom, List.filterMap_cons, hq, ih (k + 1), List.countP_cons]

/-- The length of `find_violations` as a double sum of per-line match
counts. -/
theorem find_violations_length (cs : List SchemaChange)
    (files : List (List Char × List Char)) :
    (find_violations cs files).length =
      (cs.map fun ch => if (targetOf ch).isEmpty then 0 else
        (files.map fun fc =>
          (splitlines fc.2).countP (wordSearchCI (targetOf ch))).sum).sum := by
  unfold find_violations
  rw [List.length_flatMap]
  congr 1
  apply List.map_congr_left
  intro ch _
  simp only [Function.comp_apply]
  by_cases h : (targetOf ch).isEmpty
  · rw [if_pos h, if_pos h]
    rfl
  · rw [if_neg h, if_neg h]
    rw [List.length_flatMap]
    congr 1
    apply List.map_congr_left
    intro fc _
    simp only [Function.comp_apply]
    exact length_filterMap_enum _ _ _ 1

theorem splitlines_nil : splitlines [] = [] := rfl

theorem splitlinesGo_no_newline (s : List Char) (h : '\n' ∉ s) :
    ∀ cur, splitlinesGo cur s = [cur.reverse ++ s] := by
  induction s with
  | nil => intro cur; simp [splitlinesGo]
  | cons c cs ih =>
    intro cur
    have hc : (c == '\n') = false := by
      simp only [beq_eq_false_iff_ne, ne_eq]
      rintro rfl
      exact h (by simp)
    rw [splitlinesGo, hc]
    simp only [Bool.false_eq_true, if_false]
    rw [ih (fun hm => h (by simp [hm])) (c :: cur)]
    simp

theorem splitlinesGo_append_newline (x y : List Char) (hx : '\n' ∉ x) :
    ∀ cur, splitlinesGo cur (x ++ '\n' :: y) =
      (cur.reverse ++ x) :: (if y.isEmpty then [] else splitlinesGo [] y) := by
  induction x with
  | nil => intro cur; simp [splitlinesGo]
  | cons a as ih =>
    intro cur
    have ha : (a == '\n') = false := by
      simp only [beq_eq_false_iff_ne, ne_eq]
      rintro rfl
      exact hx (by simp)
    simp only [List.cons_append]
    rw [splitlinesGo, ha]
    simp only [Bool.false_eq_true, if_false]
    rw [ih (fun hm => hx (by simp [hm])) (a :: cur)]
    simp

theorem splitlines_no_newline (s : List Char) (h : '\n' ∉ s) :
    splitlines s = if s.isEmpty then [] else [s] := by
  unfold splitlines
  by_cases he : s.isEmpty
  · simp [he]
  · simp only [he, Bool.false_eq_true, if_false]
    simpa using splitlinesGo_no_newline s h []

theorem splitlines_append_newline (x y : List Char) (hx : '\n' ∉ x) :
    splitlines (x ++ '\n' :: y) = x :: splitlines y := by
  unfold splitlines
  have hne : ((x ++ '\n' :: y).isEmpty) = false := by
    cases x <;> simp
  rw [hne]
  simp only [Bool.false_eq_true, if_false]
  rw [splitlinesGo_append_newline x y hx []]
  simp

theorem break_newline (c : List Char) (h : '\n' ∈ c) :
    ∃ x y, c = x ++ '\n' :: y ∧ '\n' ∉ x := by
  induction c with
  | nil => simp at h
  | cons a as ih =>
    by_cases ha : a = '\n'
    · exact ⟨[], as, by simp [ha], by simp⟩
    · have hmem : '\n' ∈ as := by
        rcases List.mem_cons.mp h with h1 | h1
        · exact absurd h1.symm ha
        · exact h1
      obtain ⟨x, y, rfl, hx⟩ := ih hmem
      refine ⟨a :: x, y, by simp, ?_⟩
      intro hmem2
      rcases List.mem_cons.mp hmem2 with h1 | h1
      · exact ha h1.symm
      · exact hx h1

theorem splitlines_snoc_aux : ∀ (N : Nat) (c l : List Char), c.length ≤ N → '\n' ∉ l →
    ∃ ext, splitlines (c ++ '\n' :: l) = splitlines c ++ ext ∧
      ∀ x ∈ ext, x = [] ∨ x = l := by
  intro N
  induction N with
  | zero =>
    intro c l hc hl
    have hcn : c = [] := List.eq_nil_of_length_eq_zero (by omega)
    subst hcn
    refine ⟨[] :: splitlines l, ?_, ?_⟩
    · rw [List.nil_append, show ('\n' :: l) = ([] ++ '\n' :: l) from rfl,
        splitlines_append_newline [] l (by simp), splitlines_nil, List.nil_append]
    · intro x hx
      rcases List.mem_cons.mp hx with rfl | hx2
      · exact Or.inl rfl
      · rw [splitlines_no_newline l hl] at hx2
        by_cases he : l.isEmpty
        · simp [he] at hx2
        · simp [he] at hx2
          exact Or.inr hx2
  | succ n ih =>
    intro c l hc hl
    by_cases hmem : '\n' ∈ c
    · obtain ⟨x, y, rfl, hx⟩ := break_newline c hmem
      have hy : y.length ≤ n := by
        simp only [List.length_append, List.length_cons] at hc
        omega
      obtain ⟨ext, hext, hmem2⟩ := ih y l hy hl
      refine ⟨ext, ?_, hmem2⟩
      have hassoc : (x ++ '\n' :: y) ++ '\n' :: l = x ++ '\n' :: (y ++ '\n' :: l) := by simp
      rw [hassoc, splitlines_append_newline x _ hx, splitlines_append_newline x y hx, hext]
      simp
    · rw [splitlines_append_newline c l hmem, splitlines_no_newline c hmem]
      by_cases he : c.isEmpty
      · have hcn : c = [] := List.isEmpty_iff.mp he
        subst hcn
        refine ⟨[] :: splitlines l, by simp, ?_⟩
        intro x hx
        rcases List.mem_cons.mp hx with rfl | hx2
        · exact Or.inl rfl
        · rw [splitlines_no_newline l hl] at hx2
          by_cases hle : l.isEmpty
          · simp [hle] at hx2
          · simp [hle] at hx2
            exact Or.inr hx2
      · refine ⟨splitlines l, by simp [he], ?_⟩
        intro x hx
        rw [splitlines_no_newline l hl] at hx
        by_cases hle : l.isEmpty
        · simp [hle] at hx
        · simp [hle] at hx
          exact Or.inr hx

/-- Appending one line to a file's content appends to its split lines
only copies of that line (and possibly one empty line). -/
theorem splitlines_snoc_line (c l : List Char) (hl : '\n' ∉ l) :
    ∃ ext, splitlines (c ++ '\n' :: l) = splitlines c ++ ext ∧
      ∀ x ∈ ext, x = [] ∨ x = l :=
  splitlines_snoc_aux c.length c l le_rfl hl

/-! ## Claims C9, C1, C8 -/

/-- C9: `find_violations` matches identifiers case-insensitively and as
whole words — for a change whose target (its column, or its table when the
column is empty) is a nonempty word-character identifier, line `n` of a
code file produces a violation for that change exactly when it contains
the target as a whole word under case-insensitive comparison (so `EMAIL`
in code matches a dropped column `email`). -/
theorem C9_case_insensitive_whole_word (ch : SchemaChange)
    (fname content line : List Char) (n : Nat)
    (ht : targetOf ch ≠ [])
    (htw : ∀ c ∈ targetOf ch, isWordChar c = true)
    (hn : 1 ≤ n)
    (hline : (splitlines content).get? (n - 1) = some line) :
    (∃ v ∈ find_violations [ch] [(fname, content)], v.code_line = n) ↔
      WholeWordOccurs (targetOf ch) line := by
  have hne : (targetOf ch).isEmpty = false := by
    simpa [List.isEmpty_iff] using ht
  unfold find_violations
  simp only [List.flatMap_cons, List.flatMap_nil, List.append_nil, hne,
    Bool.false_eq_true, if_false]
  constructor
  · rintro ⟨v, hv, hcl⟩
    rw [List.mem_filterMap] at hv
    obtain ⟨⟨pn, pl⟩, hp, hsome⟩ := hv
    by_cases hw : wordSearchCI (targetOf ch) pl
    · simp only [hw, if_true] at hsome
      injection hsome with hv2
      have hpn : pn = n := by rw [← hv2] at hcl; simpa using hcl
      subst hpn
      rw [mem_enumFrom] at hp
      obtain ⟨h1, hget⟩ := hp
      rw [hget] at hline
      injection hline with hpl
      subst hpl
      exact (wordSearchCI_iff _ _ ht).mp hw
    · simp [hw] at hsome
  · intro hww
    have hw : wordSearchCI (targetOf ch) line = true := (wordSearchCI_iff _ _ ht).mpr hww
    refine ⟨{ kind := ch.kind, table := ch.table, column := ch.column,
              migration_file := ch.file, migration_line := ch.line,
              code_file := fname, code_line := n, snippet := stripWs line,
              severity := ch.severity }, ?_, rfl⟩
    rw [List.mem_filterMap]
    exact ⟨(n, line),
      (mem_enumFrom line (splitlines content) 1 n).mpr ⟨hn, by simpa using hline⟩,
      by simp [hw]⟩

/-- Witness for C9 at a concrete input: dropped column `email`, code line
`x = row.EMAIL` — uppercase use is matched. -/
theorem C9_case_insensitive_whole_word_witness :
    ∃ v ∈ find_violations
        [⟨str "drop_column", str "users", str "email", str "V1.sql", 1, str "error"⟩]
        [(str "app.py", str "x = row.EMAIL")], v.code_line = 1 :=
  (C9_case_insensitive_whole_word
      ⟨str "drop_column", str "users", str "email", str "V1.sql", 1, str "error"⟩
      (str "app.py") (str "x = row.EMAIL") (str "x = row.EMAIL") 1
      (by decide) (by decide) (by decide) (by decide)).mpr
    ⟨str "x = row.", str "EMAIL", [], by decide, by decide,
      by
        intro d hd
        have h2 : (str "x = row.").getLast? = some '.' := by decide
        rw [h2] at hd
        cases hd
        decide,
      by intro d hd; simp at hd⟩

/-- C1 counterexample: the code produces a violation for a line that
fails the spec's looks-like-SQL gate (no SQL keyword, not a `.sql` file,
no quote character) and whose file nowhere contains the owning table
name — `find_violations` has neither the gate nor the table-corroboration
requirement. -/
theorem C1_counterexample :
    ¬ (∀ v ∈ find_violations
          [⟨str "drop_column", str "users", str "email", str "V1.sql", 1, str "error"⟩]
          [(str "app.go", str "email")],
        spec_lineLooksSQL (str "app.go") v.snippet = true ∧
          spec_tableInFile (str "users") (str "email") = true) := by
  decide

/-- C1 (amended): for a column-bearing change (`drop_column`,
`rename_column`, `change_type`, `not_null_no_default`) with a nonempty
word-character column, `find_violations` produces exactly one violation
per code line containing the column as a whole word (case-insensitively),
with no looks-like-SQL gate and no requirement that the owning table name
appear in the file. -/
theorem C1_line_scoped_matching (ch : SchemaChange)
    (files : List (List Char × List Char))
    (hkind : ch.kind = str "drop_column" ∨ ch.kind = str "rename_column" ∨
      ch.kind = str "change_type" ∨ ch.kind = str "not_null_no_default")
    (hc : ch.column ≠ []) (hcw : ∀ c ∈ ch.column, isWordChar c = true) :
    (find_violations [ch] files).length =
      (files.map fun fc =>
        (splitlines fc.2).countP (wordSearchCI ch.column)).sum := by
  have htarget : targetOf ch = ch.column := by
    unfold targetOf
    simp [List.isEmpty_iff, hc]
  rw [find_violations_length]
  simp [htarget, List.isEmpty_iff, hc]

/-- Witness for the amended C1: one gate-failing, table-free line still
yields exactly the whole-word match count. -/
theorem C1_line_scoped_matching_witness :
    (find_violations
        [⟨str "drop_column", str "users", str "email", str "V1.sql", 1, str "error"⟩]
        [(str "app.go", str "email")]).length =
      ([(str "app.go", str "email")].map fun fc =>
        (splitlines fc.2).countP (wordSearchCI (str "email"))).sum :=
  C1_line_scoped_matching
    ⟨str "drop_column", str "users", str "email", str "V1.sql", 1, str "error"⟩
    [(str "app.go", str "email")] (Or.inl rfl) (by decide) (by decide)

/-- C8: cross-validation is monotonic in the scanned corpus — appending a
line that matches no change to any file's content leaves the number of
violations produced by `find_violations` for the existing changes
unchanged. -/
theorem C8_monotonic_in_corpus (changes : List SchemaChange)
    (fs1 fs2 : List (List Char × List Char)) (f c l : List Char)
    (hnl : '\n' ∉ l)
    (hno : ∀ ch ∈ changes, targetOf ch ≠ [] → wordSearchCI (targetOf ch) l = false) :
    (find_violations changes (fs1 ++ (f, c ++ '\n' :: l) :: fs2)).length =
      (find_violations changes (fs1 ++ (f, c) :: fs2)).length := by
  rw [find_violations_length, find_violations_length]
  congr 1
  apply List.map_congr_left
  intro ch hch
  by_cases he : (targetOf ch).isEmpty
  · simp [he]
  · simp only [he, Bool.false_eq_true, if_false]
    have hcount : (splitlines (c ++ '\n' :: l)).countP (wordSearchCI (targetOf ch))
        = (splitlines c).countP (wordSearchCI (targetOf ch)) := by
      obtain ⟨ext, hext, hmem⟩ := splitlines_snoc_line c l hnl
      rw [hext, List.countP_append]
      have hz : ext.countP (wordSearchCI (targetOf ch)) = 0 := by
        rw [List.countP_eq_zero]
        intro x hx
        rcases hmem x hx with rfl | rfl
        · simp [wordSearchCI, wordSearchAux]
        · have hl0 := hno ch hch (by simpa [List.isEmpty_iff] using he)
          simp [hl0]
      rw [hz, Nat.add_zero]
    simp [hcount]

/-- Witness for C8: appending the unrelated line `nothing here` does not
change the violation count. -/
theorem C8_monotonic_in_corpus_witness :
    (find_violations
        [⟨str "drop_column", str "users", str "email", str "V1.sql", 1, str "error"⟩]
        ([] ++ (str "a.py", str "email" ++ '\n' :: str "nothing here") :: [])).length =
      (find_violations
        [⟨str "drop_column", str "users", str "email", str "V1.sql", 1, str "error"⟩]
        ([] ++ (str "a.py", str "email") :: [])).length :=
  C8_monotonic_in_corpus
    [⟨str "drop_column", str "users", str "email", str "V1.sql", 1, str "error"⟩]
    [] [] (str "a.py") (str "email") (str "nothing here")
    (by decide) (by decide)

/-! ## `cross_validate` (C6, C7, C10) -/

/-- Python `str.lower()`. -/
def lowerStr (s : List Char) : List Char := s.map Char.toLower

/-- `ref_lower == other.lower()`. -/
def lowerEq (a b : List Char) : Bool := lowerStr a == lowerStr b

/-- `str(n)` for the `f"...{change.line}"` interpolation. -/
def natChars (n : Nat) : List Char := Nat.toDigits 10 n

/-- The `matched` flag of `cross_validate` for one (change, reference)
pair: a column-kind change with a truthy (nonempty) column matches on the
lowercased column, `drop_table` matches on the lowercased table. -/
def matchesRef (ch : SchemaChange) (ref : CodeReference) : Bool :=
  ((ch.kind == str "drop_column" || ch.kind == str "rename_column" ||
    ch.kind == str "change_type" || ch.kind == str "not_null_no_default") &&
   !ch.column.isEmpty && lowerEq ref.name ch.column)
  || (ch.kind == str "drop_table" && lowerEq ref.name ch.table)

/-- The result record `cross_validate` appends for a matched pair,
including the `migration_statement` rendering and the severity-derived
risk level. -/
def mkResult (ch : SchemaChange) (ref : CodeReference) : CrossValidationResult :=
  { affected_file := ref.file_path
    line_number := ref.line_number
    column_name := ch.column
    table_name := ch.table
    migration_statement :=
      ch.kind ++ str ": " ++ ch.table ++
      (if ch.column.isEmpty then [] else str "." ++ ch.column) ++
      str " (" ++ ch.file ++ str ":" ++ natChars ch.line ++ str ")"
    risk_level := if ch.severity == str "error" then str "high" else str "medium" }

/-- `cross_validate(migration_findings, code_references)` from
`src/safealter.py`: one result per matched (change, reference) pair,
changes outer, references inner. -/
def cross_validate (migration_findings : List SchemaChange)
    (code_references : List CodeReference) : List CrossValidationResult :=
  migration_findings.flatMap fun ch =>
    code_references.filterMap fun ref =>
      if matchesRef ch ref then some (mkResult ch ref) else none

/-- C6: every `CrossValidationResult` has risk level `high` when its
generating change's severity is `error` and `medium` when it is
`warning`; `low` is never produced. -/
theorem C6_risk_levels (cs : List SchemaChange) (refs : List CodeReference)
    (r : CrossValidationResult) (hr : r ∈ cross_validate cs refs) :
    r.risk_level ≠ str "low" ∧
    ∃ ch ∈ cs, ∃ ref ∈ refs, matchesRef ch ref = true ∧ r = mkResult ch ref ∧
      (ch.severity = str "error" → r.risk_level = str "high") ∧
      (ch.severity = str "warning" → r.risk_level = str "medium") := by
  unfold cross_validate at hr
  rw [List.mem_flatMap] at hr
  obtain ⟨ch, hch, hr2⟩ := hr
  rw [List.mem_filterMap] at hr2
  obtain ⟨ref, href, hsome⟩ := hr2
  by_cases hm : matchesRef ch ref
  · rw [if_pos hm] at hsome
    injection hsome with hv
    subst hv
    refine ⟨?_, ch, hch, ref, href, hm, rfl, ?_, ?_⟩
    · unfold mkResult
      by_cases hs : (ch.severity == str "error") = true
      · simp only [hs, if_true]
        decide
      · simp only [hs, Bool.false_eq_true, if_false]
        decide
    · intro hsev
      unfold mkResult
      simp [hsev]
    · intro hsev
      unfold mkResult
      have : (ch.severity == str "error") = false := by
        rw [hsev]
        decide
      simp [this]
  · simp [hm] at hsome

/-- Witness for C6 at a concrete matched pair. -/
theorem C6_risk_levels_witness :
    (mkResult ⟨str "drop_column", str "t", str "c", str "m.sql", 1, str "error"⟩
        ⟨str "f.py", 1, str "x", str "raw_sql", str "c"⟩).risk_level ≠ str "low" ∧
    ∃ ch ∈ [(⟨str "drop_column", str "t", str "c", str "m.sql", 1, str "error"⟩ : SchemaChange)],
      ∃ ref ∈ [(⟨str "f.py", 1, str "x", str "raw_sql", str "c"⟩ : CodeReference)],
        matchesRef ch ref = true ∧
        mkResult ⟨str "drop_column", str "t", str "c", str "m.sql", 1, str "error"⟩
            ⟨str "f.py", 1, str "x", str "raw_sql", str "c"⟩ = mkResult ch ref ∧
        (ch.severity = str "error" →
          (mkResult ⟨str "drop_column", str "t", str "c", str "m.sql", 1, str "error"⟩
              ⟨str "f.py", 1, str "x", str "raw_sql", str "c"⟩).risk_level = str "high") ∧
        (ch.severity = str "warning" →
          (mkResult ⟨str "drop_column", str "t", str "c", str "m.sql", 1, str "error"⟩
              ⟨str "f.py", 1, str "x", str "raw_sql", str "c"⟩).risk_level = str "medium") :=
  C6_risk_levels
    [⟨str "drop_column", str "t", str "c", str "m.sql", 1, str "error"⟩]
    [⟨str "f.py", 1, str "x", str "raw_sql", str "c"⟩] _ (by decide)

/-- Spec-side notion (C7), following the claim's words: a column-kind
change matches a reference whose name case-insensitively equals the
change's column (no nonemptiness condition); `drop_table` matches a
reference whose name equals the table. -/
def spec_c7_matches (ch : SchemaChange) (ref : CodeReference) : Bool :=
  ((ch.kind == str "drop_column" || ch.kind == str "rename_column" ||
    ch.kind == str "change_type" || ch.kind == str "not_null_no_default") &&
   lowerEq ref.name ch.column)
  || (ch.kind == str "drop_table" && lowerEq ref.name ch.table)

theorem length_filterMap_if {α β : Type} (p : α → Bool) (g : α → β) :
    ∀ l : List α,
      (l.filterMap (fun a => if p a then some (g a) else none)).length =
        (l.filter p).length := by
  intro l
  induction l with
  | nil => rfl
  | cons x xs ih =>
    by_cases hp : p x
    · simp [List.filterMap_cons, List.filter_cons, hp, ih]
    · simp [List.filterMap_cons, List.filter_cons, hp, ih]

/-- C7 counterexample: under the claim's matching relation, a
`drop_column` change with empty column matches a reference with empty
name (the empty strings are case-insensitively equal), so the claim
predicts one result — but `cross_validate` produces none, because the
code additionally requires a truthy (nonempty) column. -/
theorem C7_counterexample :
    ¬ ((cross_validate
          [⟨str "drop_column", str "t", [], str "m.sql", 1, str "error"⟩]
          [⟨str "f.py", 1, str "x", str "raw_sql", []⟩]).length =
        (([⟨str "drop_column", str "t", [], str "m.sql", 1, str "error"⟩] :
            List SchemaChange).map fun ch =>
          (([⟨str "f.py", 1, str "x", str "raw_sql", []⟩] :
              List CodeReference).filter (spec_c7_matches ch)).length).sum) := by
  decide

/-- C7 (amended): `cross_validate` produces exactly one result per
matching (change, reference) pair — a change with N matching references
yields exactly N results, never fewer, with no deduplication — where a
column-kind change matches a reference whose name case-insensitively
equals the change's **nonempty** column, and `drop_table` matches a
reference whose name case-insensitively equals the change's table. -/
theorem C7_one_result_per_matching_pair (cs : List SchemaChange)
    (refs : List CodeReference) :
    (cross_validate cs refs).length =
      (cs.map fun ch => (refs.filter (matchesRef ch)).length).sum := by
  unfold cross_validate
  rw [List.length_flatMap]
  congr 1
  apply List.map_congr_left
  intro ch _
  simp only [Function.comp_apply]
  exact length_filterMap_if (matchesRef ch) (mkResult ch) refs

/-- C10: a column-kind change with an empty column contributes zero
results to `cross_validate`, whatever the references are — in particular
it never matches a reference with an empty name. -/
theorem C10_empty_column_contributes_nothing (cs1 cs2 : List SchemaChange)
    (refs : List CodeReference) (ch : SchemaChange)
    (hkind : ch.kind = str "drop_column" ∨ ch.kind = str "rename_column" ∨
      ch.kind = str "change_type" ∨ ch.kind = str "not_null_no_default")
    (hcol : ch.column = []) :
    cross_validate (cs1 ++ ch :: cs2) refs = cross_validate (cs1 ++ cs2) refs := by
  unfold cross_validate
  rw [List.flatMap_append, List.flatMap_append, List.flatMap_cons]
  have hz : (refs.filterMap fun ref =>
      if matchesRef ch ref then some (mkResult ch ref) else none) = [] := by
    rw [List.filterMap_eq_nil_iff]
    intro ref _
    have hm : matchesRef ch ref = false := by
      unfold matchesRef
      rcases hkind with h | h | h | h <;>
        · rw [h, hcol]
          simp only [List.isEmpty_nil, Bool.not_true, Bool.and_false, Bool.false_and,
            Bool.false_or]
          rfl
    rw [hm]
    simp
  rw [hz]
  simp

/-- Witness for C10: a change with empty column against a reference with
empty name adds nothing. -/
theorem C10_empty_column_contributes_nothing_witness :
    cross_validate
        ([] ++ (⟨str "drop_column", str "t", [], str "m.sql", 1, str "error"⟩ : SchemaChange) ::
          [])
        [⟨str "f.py", 1, str "x", str "raw_sql", []⟩] =
      cross_validate ([] ++ []) [⟨str "f.py", 1, str "x", str "raw_sql", []⟩] :=
  C10_empty_column_contributes_nothing [] []
    [⟨str "f.py", 1, str "x", str "raw_sql", []⟩]
    ⟨str "drop_column", str "t", [], str "m.sql", 1, str "error"⟩
    (Or.inl rfl) rfl

/-! ## `Config` and `filter_violations` (C4, C5)

`Config` and `filter_violations` are imported from `safealter` by
`src/main.py` and by the tests, but are not among the provided source
files; they are modelled from the spec (§3 Config, §4.4 Filter). -/

/-- Modelled from the spec: the `Config` dataclass — disabled rule kinds,
a rule-kind → severity override mapping (an association list), scan
paths, exclusion globs, and an advisory dialect tag, with the spec's
defaults.  Missing from the provided sources. -/
structure Config where
  rules_disabled : List (List Char) := []
  severity_override : List (List Char × List Char) := []
  scan_paths : List (List Char) := [str "."]
  exclude_patterns : List (List Char) := []
  dialect : List Char := str "postgresql"
deriving DecidableEq, Repr

/-- Lookup in the `severity_override` mapping. -/
def overrideFor (kind : List Char) : List (List Char × List Char) → Option (List Char)
  | [] => none
  | (k, v) :: rest => if k == kind then some v else overrideFor kind rest

/-- Modelled from the spec: the severity replacement the filter performs
on one surviving violation — if its kind has an override, the severity is
replaced (either direction) and all other fields are unchanged. -/
def applyOverride (cfg : Config) (v : Violation) : Violation :=
  match overrideFor v.kind cfg.severity_override with
  | some s => { v with severity := s }
  | none => v

/-- Modelled from the spec: `filter_violations(violations, config)` —
drops every violation whose kind is in the disabled-rules set and applies
the severity override to the survivors, preserving order.  Missing from
the provided sources. -/
def filter_violations (vs : List Violation) (cfg : Config) : List Violation :=
  (vs.filter fun v => !cfg.rules_disabled.contains v.kind).map (applyOverride cfg)

theorem applyOverride_kind (cfg : Config) (v : Violation) :
    (applyOverride cfg v).kind = v.kind := by
  unfold applyOverride
  cases overrideFor v.kind cfg.severity_override <;> rfl

theorem applyOverride_idem (cfg : Config) (v : Violation) :
    applyOverride cfg (applyOverride cfg v) = applyOverride cfg v := by
  unfold applyOverride
  cases h : overrideFor v.kind cfg.severity_override with
  | none => simp [h]
  | some s =>
    have hk : ({ v with severity := s } : Violation).kind = v.kind := rfl
    simp only [hk, h]

theorem filter_violations_cons (cfg : Config) (v : Violation) (vs : List Violation) :
    filter_violations (v :: vs) cfg =
      if cfg.rules_disabled.contains v.kind then filter_violations vs cfg
      else applyOverride cfg v :: filter_violations vs cfg := by
  unfold filter_violations
  by_cases h : cfg.rules_disabled.contains v.kind
  · have hm : v.kind ∈ cfg.rules_disabled := by simpa using h
    simp [List.filter_cons, h, hm]
  · have hm : ¬ v.kind ∈ cfg.rules_disabled := by simpa using h
    simp [List.filter_cons, h, hm]

/-- C4: the filter returns exactly the violations whose kind is not
disabled, in their original order, each with its severity replaced by the
configured override for its kind when one exists (whatever the
direction) and every other field unchanged. -/
theorem C4_filter_semantics (vs : List Violation) (cfg : Config) :
    filter_violations vs cfg = vs.filterMap fun v =>
      if v.kind ∈ cfg.rules_disabled then none
      else some
        { kind := v.kind, table := v.table, column := v.column
          migration_file := v.migration_file, migration_line := v.migration_line
          code_file := v.code_file, code_line := v.code_line, snippet := v.snippet
          severity := (overrideFor v.kind cfg.severity_override).getD v.severity } := by
  induction vs with
  | nil => rfl
  | cons v vs ih =>
    rw [filter_violations_cons, List.filterMap_cons]
    by_cases h : cfg.rules_disabled.contains v.kind
    · have hmem : v.kind ∈ cfg.rules_disabled := by
        simpa using h
      simp only [h, if_true, hmem, ih]
    · have hmem : ¬ v.kind ∈ cfg.rules_disabled := by
        simpa using h
      simp only [h, Bool.false_eq_true, if_false, hmem, ih]
      congr 1
      unfold applyOverride
      cases ho : overrideFor v.kind cfg.severity_override with
      | none => simp [ho]
      | some s => simp [ho]

/-- C5: the filter is idempotent — filtering an already-filtered list
with the same config changes nothing. -/
theorem C5_filter_idempotent (vs : List Violation) (cfg : Config) :
    filter_violations (filter_violations vs cfg) cfg = filter_violations vs cfg := by
  induction vs with
  | nil => rfl
  | cons v vs ih =>
    rw [filter_violations_cons]
    by_cases h : cfg.rules_disabled.contains v.kind
    · simp only [h, if_true, ih]
    · simp only [h, Bool.false_eq_true, if_false]
      rw [filter_violations_cons]
      have hk : cfg.rules_disabled.contains (applyOverride cfg v).kind = false := by
        rw [applyOverride_kind]
        simpa using h
      simp only [hk, Bool.false_eq_true, if_false, applyOverride_idem, ih]

/-! ## `CodeScanner` (C2)

The scanner's regexes, embedded per pattern.  As before, every `\w+` and
`\s+`/`\s*` is followed by a requirement only a non-word / non-space
character can meet, so maximal munch is exact; the one lazy capture
(`_RE_SQL_SELECT_COLS`) is embedded with its lazy semantics. -/

/-- A single mandatory character. -/
def oneChar (c : Char) : List Char → Option (List Char)
  | [] => none
  | d :: ds => if d == c then some ds else none

/-- A single mandatory character from a class. -/
def oneOf (cl : List Char) : List Char → Option (List Char)
  | [] => none
  | d :: ds => if cl.contains d then some ds else none

/-- The `['"]` class. -/
def pyQuotes : List Char := ['\'', '"']

/-- The opening class ``[`"'\[]``. -/
def sqlOpen : List Char := ['`', '"', '\'', '[']

/-- The closing class ``[`"'\]]``. -/
def sqlClose : List Char := ['`', '"', '\'', ']']

/-- ``Column\s*\(\s*['"]([\w]+)['"]`` (`_RE_SQLA_COLUMN`, case-sensitive). -/
def mSQLA (s : List Char) : Option (List Char × List Char) := do
  let s ← eatCS (str "Column") s
  let s := sp0 s
  let s ← oneChar '(' s
  let s := sp0 s
  let s ← oneOf pyQuotes s
  let (w, s) ← eatWord1 s
  let s ← oneOf pyQuotes s
  some (w, s)

/-- ``__tablename__\s*=\s*['"](\w+)['"]`` (`_RE_TABLENAME`, case-sensitive). -/
def mTBL (s : List Char) : Option (List Char × List Char) := do
  let s ← eatCS (str "__tablename__") s
  let s := sp0 s
  let s ← oneChar '=' s
  let s := sp0 s
  let s ← oneOf pyQuotes s
  let (w, s) ← eatWord1 s
  let s ← oneOf pyQuotes s
  some (w, s)

/-- A SQL keyword of the gate with a trailing word boundary at this
position (the alternation `SELECT|INSERT|UPDATE|DELETE|FROM|JOIN|WHERE`
under `re.I`). -/
def kwHere (s : List Char) : Bool :=
  spec_sqlKeywords.any fun kw =>
    match eatCI kw s with
    | none => false
    | some [] => true
    | some (d :: _) => !isWordChar d

/-- Scan for a gate keyword with a leading word boundary, the gap `.*`
never crossing a newline; `pw` tracks whether the previous character is a
word character. -/
def kwSearchFrom (pw : Bool) : List Char → Bool
  | [] => false
  | c :: cs => (!pw && kwHere (c :: cs)) || (c != '\n' && kwSearchFrom (isWordChar c) cs)

/-- ``['\"].*\b(?:SELECT|INSERT|UPDATE|DELETE|FROM|JOIN|WHERE)\b`` under
`re.I` — the raw-SQL gate of `scan_file`: a quote character somewhere,
and after it (a quote is a non-word character, so the boundary before the
keyword only needs the character directly before it to be non-word) a
whole-word SQL keyword on the same line. -/
def hasQuoteSql : List Char → Bool
  | [] => false
  | c :: cs => (pyQuotes.contains c && kwSearchFrom false cs) || hasQuoteSql cs

/-- ``\b(?:FROM|JOIN)\s+[`"'\[]?(\w+)[`"'\]]?`` (`_RE_SQL_FROM`, `re.I`).
`pw` is the wordness of the previous character: the leading `\b` holds
iff it is false. -/
def mFROM (pw : Bool) (s : List Char) : Option (List Char × List Char) :=
  if pw then none else do
    let s ← eatCI (str "FROM") s <|> eatCI (str "JOIN") s
    let s ← sp1 s
    let s := eatOptCl sqlOpen s
    let (w, s) ← eatWord1 s
    let s := eatOptCl sqlClose s
    some (w, s)

/-- ``\b(?:WHERE|AND|OR)\s+[`"'\[]?(\w+)[`"'\]]?\s*[=<>!]``
(`_RE_SQL_WHERE_COL`, `re.I`). -/
def mWHERE (pw : Bool) (s : List Char) : Option (List Char × List Char) :=
  if pw then none else do
    let s ← eatCI (str "WHERE") s <|> eatCI (str "AND") s <|> eatCI (str "OR") s
    let s ← sp1 s
    let s := eatOptCl sqlOpen s
    let (w, s) ← eatWord1 s
    let s := eatOptCl sqlClose s
    let s := sp0 s
    let s ← oneOf ['=', '<', '>', '!'] s
    some (w, s)

/-- ``\bINSERT\s+INTO\s+[`"'\[]?(\w+)[`"'\]]?`` (`_RE_SQL_INSERT`, `re.I`). -/
def mINSERT (pw : Bool) (s : List Char) : Option (List Char × List Char) :=
  if pw then none else do
    let s ← eatCI (str "INSERT") s
    let s ← sp1 s
    let s ← eatCI (str "INTO") s
    let s ← sp1 s
    let s := eatOptCl sqlOpen s
    let (w, s) ← eatWord1 s
    let s := eatOptCl sqlClose s
    some (w, s)

/-- ``\bUPDATE\s+[`"'\[]?(\w+)[`"'\]]?\s+SET\b`` (`_RE_SQL_UPDATE`, `re.I`). -/
def mUPDATE (pw : Bool) (s : List Char) : Option (List Char × List Char) :=
  if pw then none else do
    let s ← eatCI (str "UPDATE") s
    let s ← sp1 s
    let s := eatOptCl sqlOpen s
    let (w, s) ← eatWord1 s
    let s := eatOptCl sqlClose s
    let s ← sp1 s
    let s ← eatCI (str "SET") s
    match s with
    | [] => some (w, ([] : List Char))
    | d :: ds => if isWordChar d then none else some (w, d :: ds)

/-- ``\bSET\s+[`"'\[]?(\w+)[`"'\]]?\s*=`` (`_RE_SQL_SET_COL`, `re.I`). -/
def mSET (pw : Bool) (s : List Char) : Option (List Char × List Char) :=
  if pw then none else do
    let s ← eatCI (str "SET") s
    let s ← sp1 s
    let s := eatOptCl sqlOpen s
    let (w, s) ← eatWord1 s
    let s := eatOptCl sqlClose s
    let s := sp0 s
    let s ← oneChar '=' s
    some (w, s)

/-- ``\b(?:ORDER|GROUP)\s+BY\s+[`"'\[]?(\w+)[`"'\]]?`` (`_RE_SQL_ORDERBY`,
`re.I`). -/
def mORDERBY (pw : Bool) (s : List Char) : Option (List Char × List Char) :=
  if pw then none else do
    let s ← eatCI (str "ORDER") s <|> eatCI (str "GROUP") s
    let s ← sp1 s
    let s ← eatCI (str "BY") s
    let s ← sp1 s
    let s := eatOptCl sqlOpen s
    let (w, s) ← eatWord1 s
    let s := eatOptCl sqlClose s
    some (w, s)

/-- ``\b\w+\.(\w+)\b`` (`_RE_ORM_ATTR`).  The trailing `\b` is automatic
after a maximal word run. -/
def mORM (pw : Bool) (s : List Char) : Option (List Char × List Char) :=
  if pw then none else do
    let (_, s) ← eatWord1 s
    let s ← oneChar '.' s
    let (w, s) ← eatWord1 s
    some (w, s)

/-- The capture class ``[\w\s,.*`"']`` of `_RE_SQL_SELECT_COLS`. -/
def selClass (c : Char) : Bool :=
  isWordChar c || isSpaceChar c || c == ',' || c == '.' || c == '*' ||
    c == '`' || c == '"' || c == '\''

/-- ``\s+FROM\b`` — the terminator of the lazy SELECT column capture. -/
def trySpFrom (s : List Char) : Option (List Char) := do
  let s ← sp1 s
  let s ← eatCI (str "FROM") s
  match s with
  | [] => some ([] : List Char)
  | d :: ds => if isWordChar d then none else some (d :: ds)

/-- The lazy capture ``([\w\s,.*`"']+?)`` before ``\s+FROM\b``: grow the
capture one class character at a time, stopping at the first point where
the terminator matches. -/
def selCap (acc : List Char) : List Char → Option (List Char × List Char)
  | [] => none
  | c :: cs =>
    if selClass c then
      match trySpFrom cs with
      | some r => some (acc ++ [c], r)
      | none => selCap (acc ++ [c]) cs
    else none

/-- ``\bSELECT\s+([\w\s,.*`"']+?)\s+FROM\b`` (`_RE_SQL_SELECT_COLS`,
`re.I`).  The greedy `\s+` after `SELECT` is exact: whitespace also
belongs to the capture class, but the capture can never absorb a
character the class excludes, so shortening `\s+` can never rescue a
failed match. -/
def mSELECT (pw : Bool) (s : List Char) : Option (List Char × List Char) :=
  if pw then none else do
    let s ← eatCI (str "SELECT") s
    let s ← sp1 s
    selCap [] s

/-- The wordness of the character immediately before the rest `r` of a
match of `s`, used to resume a `\b`-anchored scan after a match. -/
def prevWordOf (s r : List Char) : Bool :=
  match (s.take (s.length - r.length)).getLast? with
  | some d => isWordChar d
  | none => false

/-- `finditer` for the `\b`-anchored scanner patterns: like `finditerF`,
threading the previous character's wordness. -/
def finditerPF (m : Bool → List Char → Option (List Char × List Char)) :
    Nat → Bool → List Char → List (List Char)
  | 0, _, _ => []
  | _ + 1, _, [] => []
  | fuel + 1, pw, c :: rest =>
    match m pw (c :: rest) with
    | some (g, r) =>
      g :: (if r.length < rest.length + 1 then finditerPF m fuel (prevWordOf (c :: rest) r) r
            else finditerPF m fuel (isWordChar c) rest)
    | none => finditerPF m fuel (isWordChar c) rest

def finditerP (m : Bool → List Char → Option (List Char × List Char))
    (s : List Char) : List (List Char) :=
  finditerPF m s.length false s

/-- `_SQL_KEYWORDS` — the SQL-keyword denylist (frozenset in the source). -/
def sqlKeywordDenylist : List (List Char) :=
  [str "select", str "insert", str "update", str "delete", str "from", str "where",
   str "set", str "into", str "table", str "column", str "and", str "or", str "not",
   str "null", str "values", str "join", str "on", str "as", str "distinct",
   str "all", str "order", str "by", str "group", str "having", str "limit",
   str "offset", str "create", str "alter", str "drop", str "index", str "primary",
   str "key", str "foreign", str "references", str "constraint", str "if",
   str "exists", str "cascade", str "int", str "integer", str "varchar",
   str "text", str "boolean", str "bigint", str "serial", str "timestamp",
   str "date", str "float", str "double", str "default", str "true", str "false",
   str "in", str "is", str "like", str "between", str "case", str "when",
   str "then", str "else", str "end", str "asc", str "desc", str "inner",
   str "outer", str "left", str "right", str "cross", str "union", str "except",
   str "intersect", str "with", str "recursive", str "returning", str "type",
   str "add", str "rename", str "to", str "using", str "unique", str "check",
   str "no", str "action"]

/-- `_PY_COMMON_ATTRS` — the common method/property-name denylist. -/
def pyCommonAttrs : List (List Char) :=
  [str "append", str "extend", str "items", str "keys", str "values", str "get",
   str "pop", str "clear", str "format", str "strip", str "split", str "join",
   str "replace", str "lower", str "upper", str "encode", str "decode",
   str "startswith", str "endswith", str "find", str "count", str "index",
   str "read", str "write", str "close", str "open", str "path", str "name",
   str "parent", str "stem", str "group", str "match", str "search",
   str "finditer", str "compile", str "sub", str "subn", str "add", str "commit",
   str "rollback", str "query", str "filter", str "all", str "first", str "one",
   str "delete", str "update", str "execute", str "fetchone", str "fetchall",
   str "fetchmany", str "session", str "metadata", str "create_all",
   str "drop_all", str "begin", str "flush", str "isinstance", str "type",
   str "len", str "str", str "int", str "float", str "bool", str "list",
   str "dict", str "set", str "tuple", str "print", str "range", str "enumerate",
   str "zip", str "map", str "sort", str "sorted", str "reverse", str "copy",
   str "deepcopy", str "dumps", str "loads", str "dump", str "load",
   str "result", str "row"]

/-- `_is_noise(name)`: SQL keyword or common Python attribute
(case-insensitively) or a leading underscore. -/
def isNoiseName (name : List Char) : Bool :=
  sqlKeywordDenylist.contains (lowerStr name) ||
  pyCommonAttrs.contains (lowerStr name) ||
  (match name with
   | [] => false
   | c :: _ => c == '_')

/-- `re.sub(r'[`"\'\[\]]', '', s)` — strip quoting and brackets. -/
def removeQB (s : List Char) : List Char :=
  s.filter fun c => !([ '`', '"', '\'', '[', ']' ] : List Char).contains c

/-- Python `str.split(sep)` for a one-character separator (keeps empty
pieces; `"".split(sep) == [""]`). -/
def splitOnChar (sep : Char) : List Char → List (List Char)
  | [] => [[]]
  | c :: cs =>
    if c == sep then [] :: splitOnChar sep cs
    else
      match splitOnChar sep cs with
      | [] => [[c]]
      | t :: ts => (c :: t) :: ts

/-- One reference from a non-column-list extractor match:
`name = re.sub(quoting, '', val)` after `val = m.group(1).strip()`, kept
when nonempty and not noise. -/
def nonColRef (fp : List Char) (lineno : Nat) (stripped : List Char)
    (val : List Char) : Option CodeReference :=
  let name := removeQB (stripWs val)
  if !name.isEmpty && !isNoiseName name then
    some ⟨fp, lineno, stripped, str "raw_sql", name⟩
  else none

/-- The references from one SELECT column-list capture: split on commas,
take the part after the last dot, strip quoting, keep nonempty non-`*`
non-noise names. -/
def selectColRefs (fp : List Char) (lineno : Nat) (stripped : List Char)
    (val : List Char) : List CodeReference :=
  (splitOnChar ',' (stripWs val)).filterMap fun tok =>
    let col := removeQB (stripWs ((splitOnChar '.' (stripWs tok)).getLast?.getD []))
    if !col.isEmpty && col != str "*" && !isNoiseName col then
      some ⟨fp, lineno, stripped, str "raw_sql", col⟩
    else none

/-- `CodeScanner._extract_sql_refs`: the seven extractors in source
order. -/
def extractSqlRefs (fp : List Char) (lineno : Nat) (stripped raw : List Char) :
    List CodeReference :=
  ((finditerP mSELECT raw).flatMap (selectColRefs fp lineno stripped))
  ++ ((finditerP mFROM raw).filterMap (nonColRef fp lineno stripped))
  ++ ((finditerP mWHERE raw).filterMap (nonColRef fp lineno stripped))
  ++ ((finditerP mINSERT raw).filterMap (nonColRef fp lineno stripped))
  ++ ((finditerP mUPDATE raw).filterMap (nonColRef fp lineno stripped))
  ++ ((finditerP mSET raw).filterMap (nonColRef fp lineno stripped))
  ++ ((finditerP mORDERBY raw).filterMap (nonColRef fp lineno stripped))

/-- `CodeScanner.scan_file(file_path, content)`: per line, the
SQLAlchemy-column pass, the `__tablename__` pass, the raw-SQL pass (gated
on a SQL file extension or a quoted SQL keyword), and — for non-SQL
files — the ORM-attribute pass with its noise filter. -/
def scan_file (file_path : List Char) (content : List Char) : List CodeReference :=
  let is_sql_file := (str ".sql").isSuffixOf file_path
  (enumFrom 1 (splitlines content)).flatMap fun p =>
    let stripped := stripWs p.2
    ((finditer mSQLA p.2).map fun w =>
      (⟨file_path, p.1, stripped, str "sqlalchemy_column", w⟩ : CodeReference))
    ++ ((finditer mTBL p.2).map fun w =>
      (⟨file_path, p.1, stripped, str "table_name", w⟩ : CodeReference))
    ++ (if is_sql_file || hasQuoteSql p.2 then
          extractSqlRefs file_path p.1 stripped p.2
        else [])
    ++ (if is_sql_file then [] else
        (finditerP mORM p.2).filterMap fun attr =>
          if isNoiseName attr then none
          else some ⟨file_path, p.1, stripped, str "orm_attribute", attr⟩)

theorem isNoiseName_false_parts (name : List Char) (h : isNoiseName name = false) :
    sqlKeywordDenylist.contains (lowerStr name) = false ∧
    pyCommonAttrs.contains (lowerStr name) = false ∧
    name.head? ≠ some '_' := by
  unfold isNoiseName at h
  simp only [Bool.or_eq_false_iff] at h
  refine ⟨h.1.1, h.1.2, ?_⟩
  cases name with
  | nil => simp
  | cons c cs =>
    simp only [List.head?_cons, ne_eq, Option.some.injEq]
    rintro rfl
    simp at h

theorem nonColRef_noise (fp : List Char) (n : Nat) (st val : List Char)
    (r : CodeReference) (h : nonColRef fp n st val = some r) :
    isNoiseName r.name = false := by
  unfold nonColRef at h
  by_cases hg : (!(removeQB (stripWs val)).isEmpty && !isNoiseName (removeQB (stripWs val))) = true
  · rw [if_pos hg] at h
    injection h with h2
    subst h2
    simp only [Bool.and_eq_true, Bool.not_eq_true'] at hg
    exact hg.2
  · rw [if_neg hg] at h
    cases h

theorem selectColRefs_noise (fp : List Char) (n : Nat) (st val : List Char)
    (r : CodeReference) (h : r ∈ selectColRefs fp n st val) :
    isNoiseName r.name = false := by
  unfold selectColRefs at h
  rw [List.mem_filterMap] at h
  obtain ⟨tok, _, hsome⟩ := h
  set col := removeQB (stripWs ((splitOnChar '.' (stripWs tok)).getLast?.getD [])) with hcol
  by_cases hg : (!col.isEmpty && col != str "*" && !isNoiseName col) = true
  · rw [if_pos hg] at hsome
    injection hsome with h2
    subst h2
    simp only [Bool.and_eq_true, Bool.not_eq_true'] at hg
    exact hg.2
  · rw [if_neg hg] at hsome
    cases hsome

theorem extractSqlRefs_noise (fp : List Char) (n : Nat) (st raw : List Char)
    (r : CodeReference) (h : r ∈ extractSqlRefs fp n st raw) :
    isNoiseName r.name = false := by
  unfold extractSqlRefs at h
  have key : ∀ (ms : List (List Char)),
      r ∈ ms.filterMap (nonColRef fp n st) → isNoiseName r.name = false := by
    intro ms hm
    rw [List.mem_filterMap] at hm
    obtain ⟨val, _, hv⟩ := hm
    exact nonColRef_noise fp n st val r hv
  have keySel : r ∈ (finditerP mSELECT raw).flatMap (selectColRefs fp n st) →
      isNoiseName r.name = false := by
    intro hm
    rw [List.mem_flatMap] at hm
    obtain ⟨val, _, hv⟩ := hm
    exact selectColRefs_noise fp n st val r hv
  simp only [List.mem_append] at h
  rcases h with ((((((hA | hB) | hC) | hD) | hE) | hF) | hG)
  · exact keySel hA
  · exact key _ hB
  · exact key _ hC
  · exact key _ hD
  · exact key _ hE
  · exact key _ hF
  · exact key _ hG

/-- C2 counterexample: `scan_file` on `Column('select')` in a `.py` file
returns a `sqlalchemy_column` reference named `select`, which is in the
SQL-keyword denylist — the declared-column and declared-table passes are
not noise-filtered. -/
theorem C2_counterexample :
    ¬ (∀ r ∈ scan_file (str "x.py") (str "Column('select')"),
        sqlKeywordDenylist.contains (lowerStr r.name) = false ∧
        pyCommonAttrs.contains (lowerStr r.name) = false ∧
        r.name.head? ≠ some '_') := by
  decide

/-- C2 (amended): every `CodeReference` returned by `scan_file` whose
`ref_type` is `raw_sql` or `orm_attribute` has a name that is in neither
denylist (case-insensitively) and does not begin with an underscore;
`sqlalchemy_column` and `table_name` references are not noise-filtered. -/
theorem C2_scan_refs_not_noise (fp content : List Char) (r : CodeReference)
    (hr : r ∈ scan_file fp content)
    (ht : r.ref_type = str "raw_sql" ∨ r.ref_type = str "orm_attribute") :
    sqlKeywordDenylist.contains (lowerStr r.name) = false ∧
    pyCommonAttrs.contains (lowerStr r.name) = false ∧
    r.name.head? ≠ some '_' := by
  unfold scan_file at hr
  rw [List.mem_flatMap] at hr
  obtain ⟨p, _, hr2⟩ := hr
  simp only [List.mem_append] at hr2
  rcases hr2 with ((h1 | h2) | h3) | h4
  · rw [List.mem_map] at h1
    obtain ⟨w, _, hw⟩ := h1
    have hrt : r.ref_type = str "sqlalchemy_column" := by rw [← hw]
    rw [hrt] at ht
    rcases ht with h | h <;> exact absurd h (by decide)
  · rw [List.mem_map] at h2
    obtain ⟨w, _, hw⟩ := h2
    have hrt : r.ref_type = str "table_name" := by rw [← hw]
    rw [hrt] at ht
    rcases ht with h | h <;> exact absurd h (by decide)
  · by_cases hg : ((str ".sql").isSuffixOf fp || hasQuoteSql p.2) = true
    · rw [if_pos hg] at h3
      exact isNoiseName_false_parts r.name (extractSqlRefs_noise fp p.1 (stripWs p.2) p.2 r h3)
    · rw [if_neg hg] at h3
      cases h3
  · by_cases hs : ((str ".sql").isSuffixOf fp) = true
    · rw [if_pos hs] at h4
      cases h4
    · rw [if_neg hs] at h4
      rw [List.mem_filterMap] at h4
      obtain ⟨attr, _, hsome⟩ := h4
      by_cases hn : isNoiseName attr
      · rw [if_pos hn] at hsome
        cases hsome
      · rw [if_neg hn] at hsome
        injection hsome with h2
        subst h2
        exact isNoiseName_false_parts attr (by simpa using hn)

/-- Witness for the amended C2 at a concrete scan: the `raw_sql`
reference `email` produced from a `.sql` line passes the noise filter. -/
theorem C2_scan_refs_not_noise_witness :
    sqlKeywordDenylist.contains (lowerStr (str "email")) = false ∧
    pyCommonAttrs.contains (lowerStr (str "email")) = false ∧
    (str "email").head? ≠ some '_' :=
  C2_scan_refs_not_noise (str "q.sql") (str "SELECT email FROM users")
    ⟨str "q.sql", 1, str "SELECT email FROM users", str "raw_sql", str "email"⟩
    (by decide) (Or.inl rfl)

/-! ## C3: the `not_null_no_default` rule on a single `ALTER TABLE … ADD`
statement

The statement class is rendered by `renderAddNN` below; the claim is
settled by computing `parse_migrations` on the rendered line. -/

/-- The single-line statement
`ALTER TABLE <t> ADD [COLUMN] <c> <ty><mid>NOT NULL<tl>`, written in
head-normal form so the matcher can be evaluated against it symbolically.
`mid` is the text between the declared type and the `NOT NULL` clause
(for example a single space), `tl` the text after the clause (for example
`" DEFAULT 0"` or `""`). -/
def renderAddNN (kw : Bool) (t c ty mid tl : List Char) : List Char :=
  str "ALTER" ++ ' ' :: (str "TABLE" ++ ' ' :: (t ++ ' ' :: (str "ADD" ++ ' ' ::
    ((if kw then str "COLUMN" ++ ' ' :: c else c) ++ ' ' ::
      (ty ++ (mid ++ (str "NOT NULL" ++ tl)))))))

/-- A nonempty all-word-character identifier. -/
def Wordy (w : List Char) : Prop := w ≠ [] ∧ ∀ x ∈ w, isWordChar x = true

theorem wordChar_not_space (d : Char) (h : isWordChar d = true) :
    isSpaceChar d = false := by
  by_contra hc
  simp only [Bool.not_eq_false] at hc
  unfold isSpaceChar at hc
  simp only [Bool.or_eq_true, beq_iff_eq] at hc
  rcases hc with ((((rfl | rfl) | rfl) | rfl) | rfl) | rfl <;> exact absurd h (by decide)

theorem wordChar_not_quote (d : Char) (h : isWordChar d = true) :
    ddlQuotes.contains d = false := by
  by_contra hc
  simp only [Bool.not_eq_false] at hc
  have hd : d ∈ ddlQuotes := by simpa using hc
  unfold ddlQuotes at hd
  simp only [List.mem_cons, List.not_mem_nil, or_false] at hd
  rcases hd with rfl | rfl | rfl <;> exact absurd h (by decide)

theorem wordChar_ne_semi (d : Char) (h : isWordChar d = true) : d ≠ ';' := by
  rintro rfl
  exact absurd h (by decide)

theorem wordChar_ne_newline (d : Char) (h : isWordChar d = true) : d ≠ '\n' := by
  rintro rfl
  exact absurd h (by decide)

theorem wordy_no_semi {w : List Char} (h : ∀ x ∈ w, isWordChar x = true) :
    ';' ∉ w := fun hmem => wordChar_ne_semi ';' (h ';' hmem) rfl

theorem wordy_no_newline {w : List Char} (h : ∀ x ∈ w, isWordChar x = true) :
    '\n' ∉ w := fun hmem => wordChar_ne_newline '\n' (h '\n' hmem) rfl

/-! Suffix lemmas: every matcher step returns a suffix of its input. -/

theorem eatCI_suffix {p s r : List Char} (h : eatCI p s = some r) : r <:+ s := by
  obtain ⟨m, rfl, -⟩ := (eatCI_some_iff p s r).mp h
  exact ⟨m, rfl⟩

theorem sp1_cons_eq (a : Char) (as : List Char) :
    sp1 (a :: as) = if isSpaceChar a = true then some (as.dropWhile isSpaceChar)
      else none := rfl

theorem sp1_suffix {s r : List Char} (h : sp1 s = some r) : r <:+ s := by
  cases s with
  | nil => simp [sp1] at h
  | cons a as =>
    rw [sp1_cons_eq] at h
    by_cases ha : isSpaceChar a = true
    · rw [if_pos ha] at h
      injection h with h2
      subst h2
      exact (List.dropWhile_suffix _).trans (List.suffix_cons a as)
    · rw [if_neg ha] at h
      cases h

theorem eatOptCl_cons_eq (cl : List Char) (a : Char) (as : List Char) :
    eatOptCl cl (a :: as) = if cl.contains a = true then as else a :: as := rfl

theorem eatOptCl_suffix (cl s : List Char) : eatOptCl cl s <:+ s := by
  cases s with
  | nil => exact List.suffix_rfl
  | cons a as =>
    rw [eatOptCl_cons_eq]
    by_cases ha : cl.contains a = true
    · rw [if_pos ha]
      exact List.suffix_cons a as
    · rw [if_neg ha]

theorem eatWord1_suffix {s : List Char} {w r : List Char}
    (h : eatWord1 s = some (w, r)) : r <:+ s := by
  unfold eatWord1 at h
  by_cases he : (s.takeWhile isWordChar).isEmpty
  · rw [if_pos he] at h
    cases h
  · rw [if_neg he] at h
    injection h with h2
    have hr : r = s.dropWhile isWordChar := congrArg Prod.snd h2.symm
    rw [hr]
    exact List.dropWhile_suffix _

theorem quotedWord_suffix {s w r : List Char} (h : quotedWord s = some (w, r)) :
    r <:+ s := by
  unfold quotedWord at h
  exact (eatWord1_suffix h).trans (eatOptCl_suffix ddlQuotes s)

theorem tryNN_elim {s r : List Char} (h : tryNN s = some r) :
    ∃ s1 s2, eatCI (str "NOT") s = some s1 ∧ sp1 s1 = some s2 ∧
      eatCI (str "NULL") s2 = some r ∧ lookDefault r = false := by
  unfold tryNN at h
  simp only [Option.bind_eq_bind, Option.bind_eq_some] at h
  obtain ⟨s1, h1, s2, h2, s3, h3, h4⟩ := h
  by_cases hl : lookDefault s3 = true
  · rw [if_pos hl] at h4
    cases h4
  · rw [if_neg hl] at h4
    injection h4 with h5
    subst h5
    exact ⟨s1, s2, h1, h2, h3, by simpa using hl⟩

theorem tryNN_suffix {s r : List Char} (h : tryNN s = some r) : r <:+ s := by
  obtain ⟨s1, s2, h1, h2, h3, -⟩ := tryNN_elim h
  exact ((eatCI_suffix h3).trans (sp1_suffix h2)).trans (eatCI_suffix h1)

theorem scanNN_suffix : ∀ {s r : List Char}, scanNN s = some r → r <:+ s := by
  intro s
  induction s with
  | nil => intro r h; simp [scanNN] at h
  | cons a as ih =>
    intro r h
    unfold scanNN at h
    cases h1 : tryNN (a :: as) with
    | some r2 =>
      rw [h1] at h
      injection h with h2
      subst h2
      exact tryNN_suffix h1
    | none =>
      rw [h1] at h
      by_cases ha : (a == ';') = true
      · rw [if_pos ha] at h
        cases h
      · rw [if_neg ha] at h
        exact (ih h).trans (List.suffix_cons a as)

theorem backScan_suffix {s : List Char} : ∀ {m : Nat} {r : List Char},
    backScan s m = some r → r <:+ s := by
  intro m
  induction m with
  | zero => intro r h; simp [backScan] at h
  | succ k ih =>
    intro r h
    unfold backScan at h
    cases h1 : tryNN (s.drop (k + 1)) with
    | some r2 =>
      rw [h1] at h
      injection h with h2
      subst h2
      exact (tryNN_suffix h1).trans (List.drop_suffix _ _)
    | none =>
      rw [h1] at h
      exact ih h

theorem rule4Tail_suffix {s r : List Char} (h : rule4Tail s = some r) : r <:+ s := by
  unfold rule4Tail at h
  by_cases hn : (s.takeWhile isWordChar).length = 0
  · rw [if_pos hn] at h
    cases h
  · rw [if_neg hn] at h
    cases h1 : scanNN (s.drop (s.takeWhile isWordChar).length) with
    | some r2 =>
      rw [h1] at h
      injection h with h2
      subst h2
      exact (scanNN_suffix h1).trans (List.drop_suffix _ _)
    | none =>
      rw [h1] at h
      exact backScan_suffix h

/-! Substring and lookahead lemmas for the region analysis. -/

theorem substrCI_cons_eq (p : List Char) (c : Char) (cs : List Char) :
    substrCI p (c :: cs) = (leadsCI p (c :: cs) || substrCI p cs) := rfl

theorem substrCI_of_suffix {p s' s : List Char} (hl : leadsCI p s' = true)
    (hs : s' <:+ s) : substrCI p s = true := by
  induction s with
  | nil =>
    have : s' = [] := List.suffix_nil.mp hs
    subst this
    simpa [substrCI] using hl
  | cons c cs ih =>
    rcases List.suffix_cons_iff.mp hs with h1 | h1
    · subst h1
      rw [substrCI_cons_eq, hl, Bool.true_or]
    · rw [substrCI_cons_eq, ih h1, Bool.or_true]

theorem substrCI_exists {p r : List Char} (h : substrCI p r = true) :
    ∃ r', r' <:+ r ∧ leadsCI p r' = true := by
  induction r with
  | nil => exact ⟨[], List.suffix_rfl, by simpa [substrCI] using h⟩
  | cons c cs ih =>
    rw [substrCI_cons_eq, Bool.or_eq_true] at h
    rcases h with h | h
    · exact ⟨c :: cs, List.suffix_rfl, h⟩
    · obtain ⟨r', hr, hl⟩ := ih h
      exact ⟨r', hr.trans (List.suffix_cons c cs), hl⟩

theorem substrCI_mono_suffix {p s r : List Char} (h : substrCI p s = false)
    (hr : r <:+ s) : substrCI p r = false := by
  by_contra hc
  simp only [Bool.not_eq_false] at hc
  obtain ⟨r', hr', hl⟩ := substrCI_exists hc
  rw [substrCI_of_suffix hl (hr'.trans hr)] at h
  cases h

/-- On semicolon-free text the lookahead is exactly a substring test. -/
theorem lookDefault_eq_substr {u : List Char} (h : ';' ∉ u) :
    lookDefault u = substrCI (str "DEFAULT") u := by
  induction u with
  | nil => rfl
  | cons c cs ih =>
    have hc : (c != ';') = true := by
      simp only [bne_iff_ne, ne_eq]
      rintro rfl
      exact h (by simp)
    rw [lookDefault, substrCI_cons_eq, hc, Bool.true_and,
      ih (fun hm => h (by simp [hm]))]
    rfl

theorem lookDefault_append_true {Y u : List Char} (hY : ';' ∉ Y)
    (hu : lookDefault u = true) : lookDefault (Y ++ u) = true := by
  induction Y with
  | nil => simpa using hu
  | cons a as ih =>
    have ha : (a != ';') = true := by
      simp only [bne_iff_ne, ne_eq]
      rintro rfl
      exact hY (by simp)
    rw [List.cons_append, lookDefault, ha, Bool.true_and,
      ih (fun hm => hY (by simp [hm])), Bool.or_true]

theorem suffix_nested {s₁ s₂ t : List Char} (h1 : s₁ <:+ t) (h2 : s₂ <:+ t)
    (hl : s₁.length ≤ s₂.length) : s₁ <:+ s₂ := by
  obtain ⟨u1, hu1⟩ := h1
  obtain ⟨u2, hu2⟩ := h2
  have heq : u1 ++ s₁ = u2 ++ s₂ := hu1.trans hu2.symm
  have hlen : u1.length + s₁.length = u2.length + s₂.length := by
    have := congrArg List.length heq
    simpa using this
  have hle : u2.length ≤ u1.length := by omega
  refine ⟨u1.drop u2.length, ?_⟩
  have hd := congrArg (List.drop u2.length) heq
  rw [List.drop_append_eq_append_drop, List.drop_append_eq_append_drop] at hd
  rw [Nat.sub_eq_zero_of_le hle, List.drop_zero] at hd
  rw [List.drop_length, Nat.sub_self, List.drop_zero, List.nil_append] at hd
  exact hd

theorem suffix_append_split {r X L : List Char} (h : r <:+ X ++ L) :
    (∃ X', X' <:+ X ∧ X' ≠ [] ∧ r = X' ++ L) ∨ r <:+ L := by
  induction X with
  | nil => right; simpa using h
  | cons a as ih =>
    rw [List.cons_append] at h
    rcases List.suffix_cons_iff.mp h with h1 | h1
    · left
      exact ⟨a :: as, List.suffix_rfl, by simp, by simpa using h1⟩
    · rcases ih h1 with ⟨X', hX, hne, rfl⟩ | h2
      · left
        exact ⟨X', hX.trans (List.suffix_cons a as), hne, rfl⟩
      · right
        exact h2

/-- Case analysis core for a suppressed statement: when `DEFAULT` occurs
in the semicolon-free tail after `NOT NULL` and the tail contains no
stray `NOT` or `NULL`, no suffix of the region `Y ++ "NOT NULL" ++ tl`
admits a `NOT\s+NULL` match with passing lookahead. -/
theorem tryNN_none_region (Y tl : List Char)
    (hY : ';' ∉ Y) (htl : ';' ∉ tl)
    (hD : substrCI (str "DEFAULT") tl = true)
    (hN : substrCI (str "NOT") tl = false)
    (hU : substrCI (str "NULL") tl = false) :
    ∀ s, s <:+ Y ++ (str "NOT NULL" ++ tl) → tryNN s = none := by
  intro s hs
  cases hop : tryNN s with
  | none => rfl
  | some r =>
    exfalso
    obtain ⟨s1, s2, h1, h2, h3, hld⟩ := tryNN_elim hop
    obtain ⟨n4, hs2, hn4⟩ := (eatCI_some_iff (str "NULL") s2 r).mp h3
    have hn4len : n4.length = 4 := ciListEq_length hn4
    have hrs : r <:+ s :=
      ((eatCI_suffix h3).trans (sp1_suffix h2)).trans (eatCI_suffix h1)
    have hs2s : s2 <:+ s := (sp1_suffix h2).trans (eatCI_suffix h1)
    have hrm : r <:+ Y ++ (str "NOT NULL" ++ tl) := hrs.trans hs
    have hltl : lookDefault tl = true := by
      rw [lookDefault_eq_substr htl]
      exact hD
    have hsemiLit : ';' ∉ str "NOT NULL" := by decide
    rcases suffix_append_split hrm with ⟨Y', hY', hne, rfl⟩ | hlt
    · have hYsemi : ';' ∉ Y' ++ str "NOT NULL" := by
        intro hm
        rcases List.mem_append.mp hm with hm | hm
        · exact hY (hY'.subset hm)
        · exact hsemiLit hm
      rw [← List.append_assoc] at hld
      rw [lookDefault_append_true hYsemi hltl] at hld
      cases hld
    · rcases suffix_append_split hlt with ⟨L', hL', hne, rfl⟩ | htlsuf
      · have hLsemi : ';' ∉ L' := fun hm => hsemiLit (hL'.subset hm)
        rw [lookDefault_append_true hLsemi hltl] at hld
        cases hld
      · by_cases heq : r = tl
        · subst heq
          rw [hltl] at hld
          cases hld
        · have hrlt : r.length < tl.length := by
            rcases Nat.lt_or_ge r.length tl.length with h | h
            · exact h
            · exact absurd (List.IsSuffix.eq_of_length htlsuf
                (Nat.le_antisymm htlsuf.length_le h)) heq
          have hULL : ('U' :: 'L' :: 'L' :: tl) <:+ Y ++ (str "NOT NULL" ++ tl) := by
            refine ⟨Y ++ str "NOT N", ?_⟩
            rw [List.append_assoc]
            congr 1
          have hs2m : (n4 ++ r) <:+ Y ++ (str "NOT NULL" ++ tl) := by
            rw [hs2] at hs2s
            exact hs2s.trans hs
          have hnest : (n4 ++ r) <:+ ('U' :: 'L' :: 'L' :: tl) := by
            refine suffix_nested hs2m hULL ?_
            simp only [List.length_append, List.length_cons, hn4len]
            omega
          have hsub : substrCI (str "NULL") ('U' :: 'L' :: 'L' :: tl) = true := by
            refine substrCI_of_suffix ?_ hnest
            unfold leadsCI
            rw [(eatCI_some_iff (str "NULL") (n4 ++ r) r).mpr ⟨n4, rfl, hn4⟩]
            rfl
          rw [substrCI_cons_eq, substrCI_cons_eq, substrCI_cons_eq] at hsub
          have e1 : leadsCI (str "NULL") ('U' :: 'L' :: 'L' :: tl) = false := rfl
          have e2 : leadsCI (str "NULL") ('L' :: 'L' :: tl) = false := rfl
          have e3 : leadsCI (str "NULL") ('L' :: tl) = false := rfl
          rw [e1, e2, e3] at hsub
          simp only [Bool.false_or] at hsub
          rw [hsub] at hU
          cases hU

theorem scanNN_none_of_all {s : List Char}
    (h : ∀ s', s' <:+ s → tryNN s' = none) : scanNN s = none := by
  induction s with
  | nil => rfl
  | cons a as ih =>
    unfold scanNN
    rw [h (a :: as) List.suffix_rfl]
    by_cases ha : (a == ';') = true
    · rw [if_pos ha]
    · rw [if_neg ha]
      exact ih fun s' hs' => h s' (hs'.trans (List.suffix_cons a as))

theorem backScan_none_of_all {s : List Char}
    (h : ∀ k, tryNN (s.drop k) = none) : ∀ m, backScan s m = none := by
  intro m
  induction m with
  | zero => rfl
  | succ k ih =>
    unfold backScan
    rw [h (k + 1)]
    exact ih

theorem rule4Tail_none_of_all {M u : List Char} (hu : u <:+ M)
    (h : ∀ s', s' <:+ M → tryNN s' = none) : rule4Tail u = none := by
  unfold rule4Tail
  by_cases hn : (u.takeWhile isWordChar).length = 0
  · rw [if_pos hn]
  · rw [if_neg hn]
    rw [scanNN_none_of_all fun s' hs' =>
      h s' ((hs'.trans (List.drop_suffix _ _)).trans hu)]
    exact backScan_none_of_all (fun k => h _ ((List.drop_suffix k u).trans hu)) _

theorem eatCI_self (p X : List Char) : eatCI p (p ++ X) = some X := by
  induction p with
  | nil => simp [eatCI]
  | cons a as ih => simp [eatCI, ciEqc, ih]

theorem scanNN_reach {Z : List Char} (hZne : Z ≠ []) {w : List Char}
    (hZ : tryNN Z = some w) :
    ∀ X : List Char, ';' ∉ X → (scanNN (X ++ Z)).isSome = true := by
  intro X
  induction X with
  | nil =>
    intro _
    cases Z with
    | nil => exact absurd rfl hZne
    | cons z zs =>
      simp only [List.nil_append]
      unfold scanNN
      rw [hZ]
      rfl
  | cons a as ih =>
    intro hX
    rw [List.cons_append]
    unfold scanNN
    cases ht : tryNN (a :: (as ++ Z)) with
    | some r => rfl
    | none =>
      have ha : (a == ';') = false := by
        simp only [beq_eq_false_iff_ne, ne_eq]
        rintro rfl
        exact hX (by simp)
      rw [ha]
      simp only [Bool.false_eq_true, if_false]
      exact ih fun hm => hX (by simp [hm])

theorem backScan_some_of {s : List Char} {k : Nat} (hk1 : 1 ≤ k)
    (hts : (tryNN (s.drop k)).isSome = true) :
    ∀ m, k ≤ m → (backScan s m).isSome = true := by
  intro m
  induction m with
  | zero => intro h; omega
  | succ j ih =>
    intro hkm
    unfold backScan
    cases ht : tryNN (s.drop (j + 1)) with
    | some r => rfl
    | none =>
      rcases Nat.eq_or_lt_of_le hkm with rfl | hlt
      · rw [ht] at hts
        cases hts
      · exact ih (by omega)

theorem splitNOTNULL (tl : List Char) :
    str "NOT NULL" ++ tl = str "NOT" ++ (' ' :: (str "NULL" ++ tl)) := rfl

theorem tryNN_lit (tl : List Char) (h : lookDefault tl = false) :
    tryNN (str "NOT NULL" ++ tl) = some tl := by
  unfold tryNN
  rw [splitNOTNULL, eatCI_self]
  simp only [Option.bind_eq_bind, Option.some_bind]
  rw [show sp1 (' ' :: (str "NULL" ++ tl)) = some (str "NULL" ++ tl) from rfl]
  simp only [Option.some_bind]
  rw [eatCI_self]
  simp only [Option.some_bind, h, Bool.false_eq_true, if_false]

theorem takeWhile_word_append {w X : List Char} (hw : ∀ x ∈ w, isWordChar x = true)
    (hX : ∀ d, X.head? = some d → isWordChar d = false) :
    (w ++ X).takeWhile isWordChar = w := by
  induction w with
  | nil =>
    cases X with
    | nil => rfl
    | cons d ds =>
      simp only [List.nil_append, List.takeWhile_cons, hX d rfl]
      rfl
  | cons a as ih =>
    simp only [List.cons_append, List.takeWhile_cons, hw a (by simp)]
    rw [ih (fun x hx => hw x (by simp [hx]))]
    simp

theorem dropWhile_word_append {w X : List Char} (hw : ∀ x ∈ w, isWordChar x = true)
    (hX : ∀ d, X.head? = some d → isWordChar d = false) :
    (w ++ X).dropWhile isWordChar = X := by
  induction w with
  | nil =>
    cases X with
    | nil => rfl
    | cons d ds =>
      simp only [List.nil_append, List.dropWhile_cons, hX d rfl]
      rfl
  | cons a as ih =>
    simp only [List.cons_append, List.dropWhile_cons, hw a (by simp)]
    rw [ih (fun x hx => hw x (by simp [hx]))]
    simp

theorem eatWord1_wordy {w X : List Char} (hw : Wordy w)
    (hX : ∀ d, X.head? = some d → isWordChar d = false) :
    eatWord1 (w ++ X) = some (w, X) := by
  unfold eatWord1
  rw [takeWhile_word_append hw.2 hX, dropWhile_word_append hw.2 hX]
  simp [List.isEmpty_iff, hw.1]

theorem eatOptCl_word {w X : List Char} (hw : Wordy w) :
    eatOptCl ddlQuotes (w ++ X) = w ++ X := by
  obtain ⟨hne, hall⟩ := hw
  cases w with
  | nil => exact absurd rfl hne
  | cons a as =>
    rw [List.cons_append, eatOptCl_cons_eq, wordChar_not_quote a (hall a (by simp))]
    simp

theorem quotedWord_wordy {w X : List Char} (hw : Wordy w)
    (hX : ∀ d, X.head? = some d → isWordChar d = false) :
    quotedWord (w ++ X) = some (w, X) := by
  unfold quotedWord
  rw [eatOptCl_word hw, eatWord1_wordy hw hX]

theorem sp1_cons_nonspace {X : List Char}
    (h : ∀ d, X.head? = some d → isSpaceChar d = false) :
    sp1 (' ' :: X) = some X := by
  rw [show sp1 (' ' :: X) =
    if isSpaceChar ' ' = true then some (X.dropWhile isSpaceChar) else none from rfl]
  rw [if_pos (by decide)]
  cases X with
  | nil => rfl
  | cons d ds =>
    rw [List.dropWhile_cons, h d rfl]
    simp

theorem rule4Tail_some_region (y0 : Char) (Y' tl : List Char)
    (hy0 : isWordChar y0 = true) (hY : ';' ∉ y0 :: Y')
    (htl : lookDefault tl = false) :
    (rule4Tail ((y0 :: Y') ++ (str "NOT NULL" ++ tl))).isSome = true := by
  have hne : str "NOT NULL" ++ tl ≠ [] := by
    rw [splitNOTNULL]
    simp [str]
  have htw : ((y0 :: Y') ++ (str "NOT NULL" ++ tl)).takeWhile isWordChar =
      y0 :: ((Y' ++ (str "NOT NULL" ++ tl)).takeWhile isWordChar) := by
    simp [List.takeWhile_cons, hy0]
  unfold rule4Tail
  rw [htw]
  simp only [List.length_cons]
  rw [if_neg (by omega)]
  set n := ((Y' ++ (str "NOT NULL" ++ tl)).takeWhile isWordChar).length + 1 with hn
  by_cases hcase : n ≤ (y0 :: Y').length
  · have hdrop : ((y0 :: Y') ++ (str "NOT NULL" ++ tl)).drop n =
        (y0 :: Y').drop n ++ (str "NOT NULL" ++ tl) :=
      List.drop_append_of_le_length hcase
    have hsome : (scanNN (((y0 :: Y') ++ (str "NOT NULL" ++ tl)).drop n)).isSome = true := by
      rw [hdrop]
      exact scanNN_reach hne (tryNN_lit tl htl) ((y0 :: Y').drop n)
        (fun hm => hY (List.drop_subset n (y0 :: Y') hm))
    cases hs : scanNN (((y0 :: Y') ++ (str "NOT NULL" ++ tl)).drop n) with
    | none => rw [hs] at hsome; cases hsome
    | some r => rfl
  · cases hs : scanNN (((y0 :: Y') ++ (str "NOT NULL" ++ tl)).drop n) with
    | some r => rfl
    | none =>
      have hdropY : (((y0 :: Y') ++ (str "NOT NULL" ++ tl))).drop (y0 :: Y').length =
          str "NOT NULL" ++ tl := List.drop_left _ _
      apply backScan_some_of (k := (y0 :: Y').length)
      · simp
      · rw [hdropY, tryNN_lit tl htl]
        rfl
      · omega

theorem rule4Col_none_of_all {M t s : List Char} (hs : s <:+ M)
    (h : ∀ s', s' <:+ M → tryNN s' = none) : rule4Col t s = none := by
  unfold rule4Col
  cases h1 : quotedWord s with
  | none => rfl
  | some p =>
    obtain ⟨c, s1⟩ := p
    simp only [Option.bind_eq_bind, Option.some_bind]
    cases h2 : sp1 (eatOptCl ddlQuotes s1) with
    | none => rfl
    | some s2 =>
      simp only [Option.some_bind]
      have hs2 : s2 <:+ M :=
        (((sp1_suffix h2).trans (eatOptCl_suffix ddlQuotes s1)).trans
          (quotedWord_suffix h1)).trans hs
      rw [rule4Tail_none_of_all hs2 h]
      rfl

/-- The evaluated `rule4Col` on the well-formed tail `c ++ ' ' :: REST`:
it reduces to `rule4Tail REST` (up to packaging). -/
theorem rule4Col_eval {t c R : List Char} (hc : Wordy c) {d : Char}
    (hd : R.head? = some d) (hdw : isWordChar d = true) :
    rule4Col t (c ++ ' ' :: R) =
      (rule4Tail R).map (fun r => ((t, c), r)) := by
  unfold rule4Col
  rw [quotedWord_wordy hc (by intro e he; rw [show (' ' :: R).head? = some ' ' from rfl] at he; cases he; decide)]
  simp only [Option.bind_eq_bind, Option.some_bind]
  rw [show eatOptCl ddlQuotes (' ' :: R) = ' ' :: R by
    rw [eatOptCl_cons_eq, if_neg (by decide)]]
  rw [sp1_cons_nonspace (by
    intro e he
    rw [hd] at he
    injection he with he2
    subst he2
    exact wordChar_not_space d hdw)]
  simp only [Option.some_bind]
  cases hrt : rule4Tail R with
  | none => rfl
  | some r => rfl

theorem alterTableHead_render (kw : Bool) (t c ty mid tl : List Char)
    (ht : Wordy t) :
    alterTableHead (renderAddNN kw t c ty mid tl) =
      some (t, str "ADD" ++ ' ' ::
        ((if kw then str "COLUMN" ++ ' ' :: c else c) ++ ' ' ::
          (ty ++ (mid ++ (str "NOT NULL" ++ tl))))) := by
  obtain ⟨htne, htw⟩ := ht
  cases t with
  | nil => exact absurd rfl htne
  | cons t0 t' =>
    unfold alterTableHead renderAddNN
    rw [eatCI_self]
    simp only [Option.bind_eq_bind, Option.some_bind]
    rw [sp1_cons_nonspace (by intro d hd; cases hd; decide)]
    simp only [Option.some_bind]
    rw [eatCI_self]
    simp only [Option.some_bind]
    rw [sp1_cons_nonspace (by
      intro d hd
      rw [show ((t0 :: t') ++ ' ' :: (str "ADD" ++ ' ' ::
        ((if kw then str "COLUMN" ++ ' ' :: c else c) ++ ' ' ::
          (ty ++ (mid ++ (str "NOT NULL" ++ tl)))))).head? = some t0 from rfl] at hd
      injection hd with hd2
      subst hd2
      exact wordChar_not_space t0 (htw t0 (by simp)))]
    simp only [Option.some_bind]
    rw [quotedWord_wordy ⟨htne, htw⟩ (by intro d hd; cases hd; decide)]
    simp only [Option.some_bind]
    rw [show eatOptCl ddlQuotes (' ' :: (str "ADD" ++ ' ' ::
      ((if kw then str "COLUMN" ++ ' ' :: c else c) ++ ' ' ::
        (ty ++ (mid ++ (str "NOT NULL" ++ tl)))))) = ' ' :: (str "ADD" ++ ' ' ::
      ((if kw then str "COLUMN" ++ ' ' :: c else c) ++ ' ' ::
        (ty ++ (mid ++ (str "NOT NULL" ++ tl))))) by
      rw [eatOptCl_cons_eq, if_neg (by decide)]]
    rw [sp1_cons_nonspace (by intro d hd; cases hd; decide)]
    simp only [Option.some_bind]

theorem rule4At_render (kw : Bool) (t c ty mid tl : List Char)
    (ht : Wordy t) (hc : Wordy c) :
    rule4At (renderAddNN kw t c ty mid tl) =
      ((do
        let s' ← eatCI (str "COLUMN")
          ((if kw then str "COLUMN" ++ ' ' :: c else c) ++ ' ' ::
            (ty ++ (mid ++ (str "NOT NULL" ++ tl))))
        let s' ← sp1 s'
        rule4Col t s') <|>
      rule4Col t ((if kw then str "COLUMN" ++ ' ' :: c else c) ++ ' ' ::
        (ty ++ (mid ++ (str "NOT NULL" ++ tl))))) := by
  unfold rule4At
  rw [alterTableHead_render kw t c ty mid tl ht]
  simp only [Option.bind_eq_bind, Option.some_bind]
  rw [eatCI_self]
  simp only [Option.some_bind]
  rw [sp1_cons_nonspace (by
    intro d hd
    cases kw
    · obtain ⟨hcne, hcw⟩ := hc
      cases c with
      | nil => exact absurd rfl hcne
      | cons c0 c' =>
        rw [if_neg (by simp)] at hd
        rw [show ((c0 :: c') ++ ' ' ::
          (ty ++ (mid ++ (str "NOT NULL" ++ tl)))).head? = some c0 from rfl] at hd
        injection hd with hd2
        subst hd2
        exact wordChar_not_space c0 (hcw c0 (by simp))
    · rw [if_pos rfl] at hd
      rw [show ((str "COLUMN" ++ ' ' :: c) ++ ' ' ::
        (ty ++ (mid ++ (str "NOT NULL" ++ tl)))).head? = some 'C' from rfl] at hd
      injection hd with hd2
      subst hd2
      decide)]
  simp only [Option.some_bind]

theorem isSome_orElse_right {α : Type} {a b : Option α} (h : b.isSome = true) :
    (a <|> b).isSome = true := by
  cases a <;> simp_all

theorem orElse_eq_some_elim {α : Type} {a b : Option α} {x : α}
    (h : (a <|> b) = some x) : a = some x ∨ (a = none ∧ b = some x) := by
  cases a <;> simp_all

/-- Case A: a `DEFAULT` after the `NOT NULL` on the same statement (with a
clean tail) makes rule 4 fail on the whole rendered statement. -/
theorem rule4At_render_none (kw : Bool) (t c ty mid tl : List Char)
    (ht : Wordy t) (hc : Wordy c) (hty : Wordy ty)
    (hmid : ';' ∉ mid) (htl : ';' ∉ tl)
    (hD : substrCI (str "DEFAULT") tl = true)
    (hN : substrCI (str "NOT") tl = false)
    (hU : substrCI (str "NULL") tl = false) :
    rule4At (renderAddNN kw t c ty mid tl) = none := by
  cases c with
  | nil => exact absurd rfl hc.1
  | cons c0 c' =>
    have hYsemi : ';' ∉ (c0 :: c') ++ ' ' :: (ty ++ mid) := by
      intro hm
      rcases List.mem_append.mp hm with hm | hm
      · exact wordy_no_semi hc.2 hm
      · rcases List.mem_cons.mp hm with hm | hm
        · exact absurd hm (by decide)
        · rcases List.mem_append.mp hm with hm | hm
          · exact wordy_no_semi hty.2 hm
          · exact hmid hm
    have hMeq : (c0 :: c') ++ ' ' :: (ty ++ (mid ++ (str "NOT NULL" ++ tl)))
        = ((c0 :: c') ++ ' ' :: (ty ++ mid)) ++ (str "NOT NULL" ++ tl) := by
      simp [List.append_assoc]
    have hTry : ∀ s', s' <:+ (c0 :: c') ++ ' ' :: (ty ++ (mid ++ (str "NOT NULL" ++ tl))) →
        tryNN s' = none := by
      intro s' hs'
      rw [hMeq] at hs'
      exact tryNN_none_region ((c0 :: c') ++ ' ' :: (ty ++ mid)) tl hYsemi htl hD hN hU s' hs'
    have hColNone : ∀ s, s <:+ (c0 :: c') ++ ' ' :: (ty ++ (mid ++ (str "NOT NULL" ++ tl))) →
        rule4Col t s = none := fun s hs => rule4Col_none_of_all hs hTry
    rw [rule4At_render kw t (c0 :: c') ty mid tl ht hc]
    cases kw with
    | true =>
      rw [if_pos rfl]
      rw [show (str "COLUMN" ++ ' ' :: (c0 :: c')) ++ ' ' ::
            (ty ++ (mid ++ (str "NOT NULL" ++ tl)))
          = str "COLUMN" ++ ' ' :: ((c0 :: c') ++ ' ' ::
            (ty ++ (mid ++ (str "NOT NULL" ++ tl)))) by simp [List.append_assoc]]
      rw [eatCI_self]
      simp only [Option.bind_eq_bind, Option.some_bind]
      rw [sp1_cons_nonspace (by
        intro d hd
        rw [show (((c0 :: c') ++ ' ' ::
          (ty ++ (mid ++ (str "NOT NULL" ++ tl)))).head? = some c0) from rfl] at hd
        injection hd with hd2
        subst hd2
        exact wordChar_not_space c0 (hc.2 c0 (by simp)))]
      simp only [Option.some_bind]
      rw [hColNone _ List.suffix_rfl]
      rw [rule4Col_eval (show Wordy (str "COLUMN") from ⟨by decide, by decide⟩)
        (show (((c0 :: c') ++ ' ' ::
          (ty ++ (mid ++ (str "NOT NULL" ++ tl)))).head? = some c0) from rfl)
        (hc.2 c0 (by simp))]
      rw [rule4Tail_none_of_all List.suffix_rfl hTry]
      rfl
    | false =>
      rw [if_neg (by simp)]
      have hb2 : rule4Col t ((c0 :: c') ++ ' ' ::
          (ty ++ (mid ++ (str "NOT NULL" ++ tl)))) = none :=
        hColNone _ List.suffix_rfl
      cases h1 : eatCI (str "COLUMN") ((c0 :: c') ++ ' ' ::
          (ty ++ (mid ++ (str "NOT NULL" ++ tl)))) with
      | none =>
        simp only [Option.bind_eq_bind, Option.none_bind]
        rw [hb2]
        rfl
      | some s1 =>
        simp only [Option.bind_eq_bind, Option.some_bind]
        cases h2 : sp1 s1 with
        | none =>
          simp only [Option.none_bind]
          rw [hb2]
          rfl
        | some s2 =>
          simp only [Option.some_bind]
          rw [hColNone s2 ((sp1_suffix h2).trans (eatCI_suffix h1))]
          rw [hb2]
          rfl

/-- Case B: without a `DEFAULT` after `NOT NULL`, rule 4 matches the
rendered statement. -/
theorem rule4At_render_isSome (kw : Bool) (t c ty mid tl : List Char)
    (ht : Wordy t) (hc : Wordy c) (hty : Wordy ty)
    (hmid : ';' ∉ mid) (htl : ';' ∉ tl)
    (hD : substrCI (str "DEFAULT") tl = false) :
    (rule4At (renderAddNN kw t c ty mid tl)).isSome = true := by
  have hld : lookDefault tl = false := by
    rw [lookDefault_eq_substr htl]
    exact hD
  cases c with
  | nil => exact absurd rfl hc.1
  | cons c0 c' =>
    cases ty with
    | nil => exact absurd rfl hty.1
    | cons y0 y' =>
      rw [rule4At_render kw t (c0 :: c') (y0 :: y') mid tl ht hc]
      cases kw with
      | false =>
        rw [if_neg (by simp)]
        have hTail : (rule4Tail ((y0 :: y') ++ (mid ++ (str "NOT NULL" ++ tl)))).isSome
            = true := by
          rw [show (y0 :: y') ++ (mid ++ (str "NOT NULL" ++ tl))
              = (y0 :: (y' ++ mid)) ++ (str "NOT NULL" ++ tl) by
            simp [List.append_assoc]]
          refine rule4Tail_some_region y0 (y' ++ mid) tl (hty.2 y0 (by simp)) ?_ hld
          intro hm
          rcases List.mem_cons.mp hm with hm | hm
          · subst hm
            exact wordy_no_semi hty.2 (List.mem_cons_self _ _)
          · rcases List.mem_append.mp hm with hm | hm
            · exact wordy_no_semi hty.2 (List.mem_cons_of_mem y0 hm)
            · exact hmid hm
        apply isSome_orElse_right
        rw [rule4Col_eval hc
          (show (((y0 :: y') ++ (mid ++ (str "NOT NULL" ++ tl))).head? = some y0) from rfl)
          (hty.2 y0 (by simp))]
        cases hrt : rule4Tail ((y0 :: y') ++ (mid ++ (str "NOT NULL" ++ tl))) with
        | none => rw [hrt] at hTail; cases hTail
        | some r => rfl
      | true =>
        rw [if_pos rfl]
        rw [show (str "COLUMN" ++ ' ' :: (c0 :: c')) ++ ' ' ::
              ((y0 :: y') ++ (mid ++ (str "NOT NULL" ++ tl)))
            = str "COLUMN" ++ ' ' :: ((c0 :: c') ++ ' ' ::
              ((y0 :: y') ++ (mid ++ (str "NOT NULL" ++ tl)))) by
          simp [List.append_assoc]]
        have hTail : (rule4Tail ((c0 :: c') ++ ' ' ::
            ((y0 :: y') ++ (mid ++ (str "NOT NULL" ++ tl))))).isSome = true := by
          rw [show (c0 :: c') ++ ' ' :: ((y0 :: y') ++ (mid ++ (str "NOT NULL" ++ tl)))
              = (c0 :: (c' ++ ' ' :: ((y0 :: y') ++ mid))) ++ (str "NOT NULL" ++ tl) by
            simp [List.append_assoc]]
          refine rule4Tail_some_region c0 (c' ++ ' ' :: ((y0 :: y') ++ mid)) tl
            (hc.2 c0 (by simp)) ?_ hld
          intro hm
          rcases List.mem_cons.mp hm with hm | hm
          · subst hm
            exact wordy_no_semi hc.2 (List.mem_cons_self _ _)
          · rcases List.mem_append.mp hm with hm | hm
            · exact wordy_no_semi hc.2 (List.mem_cons_of_mem c0 hm)
            · rcases List.mem_cons.mp hm with hm | hm
              · exact absurd hm (by decide)
              · rcases List.mem_append.mp hm with hm | hm
                · exact wordy_no_semi hty.2 hm
                · exact hmid hm
        apply isSome_orElse_right
        rw [rule4Col_eval (show Wordy (str "COLUMN") from ⟨by decide, by decide⟩)
          (show (((c0 :: c') ++ ' ' ::
            ((y0 :: y') ++ (mid ++ (str "NOT NULL" ++ tl)))).head? = some c0) from rfl)
          (hc.2 c0 (by simp))]
        cases hrt : rule4Tail ((c0 :: c') ++ ' ' ::
            ((y0 :: y') ++ (mid ++ (str "NOT NULL" ++ tl)))) with
        | none => rw [hrt] at hTail; cases hTail
        | some r => rfl

theorem alterTableHead_rest {s t s1 : List Char}
    (h : alterTableHead s = some (t, s1)) :
    s1 <:+ s ∧ s1.length + 5 ≤ s.length := by
  unfold alterTableHead at h
  simp only [Option.bind_eq_bind, Option.bind_eq_some] at h
  obtain ⟨sA, hA, sB, hB, sC, hC, sD, hD, ⟨t2, sE⟩, hE, sF, hF, hfin⟩ := h
  simp only [Option.some.injEq, Prod.mk.injEq] at hfin
  obtain ⟨-, hEq⟩ := hfin
  subst hEq
  have hsuf : sF <:+ sA :=
    ((((sp1_suffix hF).trans (eatOptCl_suffix ddlQuotes sE)).trans
      (quotedWord_suffix hE)).trans (sp1_suffix hD)).trans
      ((eatCI_suffix hC).trans (sp1_suffix hB))
  obtain ⟨m, hm, hciN⟩ := (eatCI_some_iff (str "ALTER") s sA).mp hA
  have hmlen : m.length = 5 := ciListEq_length hciN
  have hAs : sA <:+ s := ⟨m, hm.symm⟩
  refine ⟨hsuf.trans hAs, ?_⟩
  have h1 := hsuf.length_le
  have h2 : s.length = m.length + sA.length := by
    rw [hm, List.length_append]
  omega

theorem rule4Col_rest {t s : List Char} {g : List Char × List Char} {r : List Char}
    (h : rule4Col t s = some (g, r)) : r <:+ s := by
  unfold rule4Col at h
  simp only [Option.bind_eq_bind, Option.bind_eq_some] at h
  obtain ⟨⟨c, s1⟩, h1, s2, h2, s3, h3, hfin⟩ := h
  simp only [Option.some.injEq, Prod.mk.injEq] at hfin
  obtain ⟨-, hEq⟩ := hfin
  subst hEq
  exact ((rule4Tail_suffix h3).trans
    ((sp1_suffix h2).trans (eatOptCl_suffix ddlQuotes s1))).trans
    (quotedWord_suffix h1)

theorem rule4At_rest {s : List Char} {g : List Char × List Char} {r : List Char}
    (h : rule4At s = some (g, r)) : r <:+ s ∧ r.length + 5 ≤ s.length := by
  unfold rule4At at h
  simp only [Option.bind_eq_bind, Option.bind_eq_some] at h
  obtain ⟨⟨t, s1⟩, h1, s2, h2, s3, h3, h4⟩ := h
  obtain ⟨hs1, hlen⟩ := alterTableHead_rest h1
  have hr3 : r <:+ s3 := by
    rcases orElse_eq_some_elim h4 with hb1 | ⟨-, hb2⟩
    · simp only [Option.bind_eq_bind, Option.bind_eq_some] at hb1
      obtain ⟨sa, ha, sb, hb, hcol⟩ := hb1
      exact (rule4Col_rest hcol).trans ((sp1_suffix hb).trans (eatCI_suffix ha))
    · exact rule4Col_rest hb2
  have hr1 : r <:+ s1 := hr3.trans ((sp1_suffix h3).trans (eatCI_suffix h2))
  have hl1 := hr1.length_le
  exact ⟨hr1.trans hs1, by omega⟩

theorem rule4At_none_of_noAlter {s : List Char}
    (h : leadsCI (str "ALTER") s = false) : rule4At s = none := by
  have he : eatCI (str "ALTER") s = none := by
    cases heq : eatCI (str "ALTER") s with
    | none => rfl
    | some r =>
      unfold leadsCI at h
      rw [heq] at h
      cases h
  unfold rule4At alterTableHead
  rw [he]
  simp only [Option.bind_eq_bind, Option.none_bind]

theorem finditerF_rule4_nil : ∀ (fuel : Nat) (s : List Char),
    substrCI (str "ALTER") s = false → finditerF rule4At fuel s = [] := by
  intro fuel
  induction fuel with
  | zero => intro s h; rfl
  | succ n ih =>
    intro s h
    cases s with
    | nil => rfl
    | cons a as =>
      rw [substrCI_cons_eq] at h
      obtain ⟨hl, hsub⟩ := Bool.or_eq_false_iff.mp h
      simp only [finditerF, rule4At_none_of_noAlter hl]
      exact ih as hsub

theorem finditer_rule4_nil_of {s : List Char} (h0 : rule4At s = none)
    (h1 : substrCI (str "ALTER") (s.drop 1) = false) : finditer rule4At s = [] := by
  cases s with
  | nil => rfl
  | cons a as =>
    unfold finditer
    simp only [List.length_cons, finditerF, h0]
    exact finditerF_rule4_nil as.length as h1

theorem finditer_rule4_single {s : List Char} {g : List Char × List Char}
    {r : List Char} (h0 : rule4At s = some (g, r))
    (h1 : substrCI (str "ALTER") (s.drop 1) = false) :
    finditer rule4At s = [g] := by
  cases s with
  | nil =>
    rw [show rule4At ([] : List Char) = none from rfl] at h0
    cases h0
  | cons a as =>
    obtain ⟨hsuf, hlen⟩ := rule4At_rest h0
    have hlc : (a :: as).length = as.length + 1 := List.length_cons a as
    have hrlt : r.length < as.length + 1 := by omega
    have hras : r <:+ as := by
      rcases List.suffix_cons_iff.mp hsuf with heq | hsf
      · exfalso
        rw [heq] at hrlt
        simp only [List.length_cons] at hrlt
        omega
      · exact hsf
    have h1' : substrCI (str "ALTER") as = false := h1
    unfold finditer
    simp only [List.length_cons, finditerF, h0]
    rw [if_pos hrlt]
    rw [finditerF_rule4_nil as.length r (substrCI_mono_suffix h1' hras)]

theorem renderAddNN_length (kw : Bool) (t c ty mid tl : List Char) :
    0 < (renderAddNN kw t c ty mid tl).length := by
  have h5 : (str "ALTER").length = 5 := rfl
  unfold renderAddNN
  rw [List.length_append, h5]
  omega

theorem renderAddNN_ne_nil (kw : Bool) (t c ty mid tl : List Char) :
    renderAddNN kw t c ty mid tl ≠ [] := by
  intro h
  have hl := renderAddNN_length kw t c ty mid tl
  rw [h] at hl
  simp at hl

theorem renderAddNN_no_newline (kw : Bool) (t c ty mid tl : List Char)
    (ht : Wordy t) (hc : Wordy c) (hty : Wordy ty)
    (hmid : '\n' ∉ mid) (htl : '\n' ∉ tl) :
    '\n' ∉ renderAddNN kw t c ty mid tl := by
  intro hm
  have hA : '\n' ∉ str "ALTER" := by decide
  have hT : '\n' ∉ str "TABLE" := by decide
  have hAd : '\n' ∉ str "ADD" := by decide
  have hCo : '\n' ∉ str "COLUMN" := by decide
  have hNN : '\n' ∉ str "NOT NULL" := by decide
  have hsp : ('\n' : Char) ≠ ' ' := by decide
  unfold renderAddNN at hm
  cases kw with
  | true =>
    rw [if_pos rfl] at hm
    simp only [List.mem_append, List.mem_cons] at hm
    rcases hm with hm | hm | hm | hm | hm | hm | hm | hm |
      (hm | hm | hm) | hm | hm | hm | hm | hm
    · exact hA hm
    · exact hsp hm
    · exact hT hm
    · exact hsp hm
    · exact wordy_no_newline ht.2 hm
    · exact hsp hm
    · exact hAd hm
    · exact hsp hm
    · exact hCo hm
    · exact hsp hm
    · exact wordy_no_newline hc.2 hm
    · exact hsp hm
    · exact wordy_no_newline hty.2 hm
    · exact hmid hm
    · exact hNN hm
    · exact htl hm
  | false =>
    rw [if_neg (by simp)] at hm
    simp only [List.mem_append, List.mem_cons] at hm
    rcases hm with hm | hm | hm | hm | hm | hm | hm | hm | hm | hm | hm | hm | hm | hm
    · exact hA hm
    · exact hsp hm
    · exact hT hm
    · exact hsp hm
    · exact wordy_no_newline ht.2 hm
    · exact hsp hm
    · exact hAd hm
    · exact hsp hm
    · exact wordy_no_newline hc.2 hm
    · exact hsp hm
    · exact wordy_no_newline hty.2 hm
    · exact hmid hm
    · exact hNN hm
    · exact htl hm

theorem filter_ruleChanges_ne (k sv fn : List Char) (n : Nat)
    (ms : List (List Char × List Char))
    (h : (k == str "not_null_no_default") = false) :
    (ruleChanges k sv fn n ms).filter
      (fun ch => ch.kind == str "not_null_no_default") = [] := by
  unfold ruleChanges
  rw [List.filter_map]
  have hp : ((fun ch => ch.kind == str "not_null_no_default") ∘
      fun m : List Char × List Char =>
        (⟨k, m.1, m.2, fn, n, sv⟩ : SchemaChange)) = fun _ => false := by
    funext m
    simp [Function.comp, h]
  rw [hp, List.filter_false, List.map_nil]

theorem filter_ruleChanges_eq (sv fn : List Char) (n : Nat)
    (ms : List (List Char × List Char)) :
    ((ruleChanges (str "not_null_no_default") sv fn n ms).filter
      (fun ch => ch.kind == str "not_null_no_default")).length = ms.length := by
  unfold ruleChanges
  rw [List.filter_map]
  have hp : ((fun ch => ch.kind == str "not_null_no_default") ∘
      fun m : List Char × List Char =>
        (⟨str "not_null_no_default", m.1, m.2, fn, n, sv⟩ : SchemaChange))
      = fun _ => true := by
    funext m
    simp
  rw [hp, List.filter_true, List.length_map]

theorem filter_dropTable_ne (fn : List Char) (n : Nat) (ms : List (List Char)) :
    (ms.map (fun t =>
        (⟨str "drop_table", t, [], fn, n, str "error"⟩ : SchemaChange))).filter
      (fun ch => ch.kind == str "not_null_no_default") = [] := by
  rw [List.filter_map]
  have hp : ((fun ch => ch.kind == str "not_null_no_default") ∘
      fun t : List Char =>
        (⟨str "drop_table", t, [], fn, n, str "error"⟩ : SchemaChange))
      = fun _ => false := by
    funext m
    simp [Function.comp]
    decide
  rw [hp, List.filter_false, List.map_nil]

/-- On a nonempty single line (no newline), the `not_null_no_default`
changes of `parse_migrations` are exactly the rule-4 matches of the line. -/
theorem parse_notnull_count (L fn : List Char) (hnl : '\n' ∉ L) (hne : L ≠ []) :
    ((parse_migrations L fn).filter
      (fun ch => ch.kind == str "not_null_no_default")).length
      = (finditer rule4At L).length := by
  unfold parse_migrations
  rw [splitlines_no_newline L hnl, if_neg (by simp [List.isEmpty_iff, hne])]
  show (((enumFrom 1 [L]).flatMap _).filter _).length = _
  rw [show enumFrom 1 [L] = [(1, L)] from rfl]
  rw [List.flatMap_cons, List.flatMap_nil, List.append_nil]
  simp only [List.filter_append, List.length_append]
  rw [filter_ruleChanges_ne _ _ _ _ _ (by decide),
    filter_ruleChanges_ne _ _ _ _ _ (by decide),
    filter_dropTable_ne,
    filter_ruleChanges_eq,
    filter_ruleChanges_ne _ _ _ _ _ (by decide)]
  simp

/-- Every `not_null_no_default` change produced by `parse_migrations` has
severity `warning`. -/
theorem parse_notnull_severity (sql fn : List Char) (ch : SchemaChange)
    (hch : ch ∈ parse_migrations sql fn)
    (hk : ch.kind = str "not_null_no_default") : ch.severity = str "warning" := by
  unfold parse_migrations at hch
  rw [List.mem_flatMap] at hch
  obtain ⟨p, hp, hm⟩ := hch
  simp only [List.mem_append] at hm
  rcases hm with ((((hm | hm) | hm) | hm) | hm)
  · obtain ⟨m, -, hEq⟩ := List.mem_map.mp hm
    rw [← hEq] at hk
    exact absurd (show str "drop_column" = str "not_null_no_default" from hk) (by decide)
  · obtain ⟨m, -, hEq⟩ := List.mem_map.mp hm
    rw [← hEq] at hk
    exact absurd (show str "rename_column" = str "not_null_no_default" from hk) (by decide)
  · obtain ⟨m, -, hEq⟩ := List.mem_map.mp hm
    rw [← hEq] at hk
    exact absurd (show str "drop_table" = str "not_null_no_default" from hk) (by decide)
  · obtain ⟨m, -, hEq⟩ := List.mem_map.mp hm
    rw [← hEq]
  · obtain ⟨m, -, hEq⟩ := List.mem_map.mp hm
    rw [← hEq] at hk
    exact absurd (show str "change_type" = str "not_null_no_default" from hk) (by decide)

/-- C3: for every single-line `ALTER TABLE t ADD [COLUMN] c ty … NOT NULL …`
statement (word-character identifiers, no semicolon or newline in the gap
or the tail, no stray `NOT`/`NULL`/second `ALTER` after the `NOT NULL`),
`parse_migrations` yields zero `not_null_no_default` changes when `DEFAULT`
occurs in the tail after the `NOT NULL`, and exactly one otherwise; and
every `not_null_no_default` change it ever yields has severity `warning`. -/
theorem C3_default_suppresses_not_null (kw : Bool) (t c ty mid tl fn : List Char)
    (ht : Wordy t) (hc : Wordy c) (hty : Wordy ty)
    (hmidS : ';' ∉ mid) (hmidN : '\n' ∉ mid)
    (htlS : ';' ∉ tl) (htlN : '\n' ∉ tl)
    (hN : substrCI (str "NOT") tl = false)
    (hU : substrCI (str "NULL") tl = false)
    (hA : substrCI (str "ALTER") ((renderAddNN kw t c ty mid tl).drop 1) = false) :
    (((parse_migrations (renderAddNN kw t c ty mid tl) fn).filter
        (fun ch => ch.kind == str "not_null_no_default")).length
      = if substrCI (str "DEFAULT") tl = true then 0 else 1)
    ∧ ∀ ch ∈ parse_migrations (renderAddNN kw t c ty mid tl) fn,
        ch.kind = str "not_null_no_default" → ch.severity = str "warning" := by
  constructor
  · rw [parse_notnull_count _ fn
      (renderAddNN_no_newline kw t c ty mid tl ht hc hty hmidN htlN)
      (renderAddNN_ne_nil kw t c ty mid tl)]
    by_cases hD : substrCI (str "DEFAULT") tl = true
    · rw [if_pos hD, finditer_rule4_nil_of
        (rule4At_render_none kw t c ty mid tl ht hc hty hmidS htlS hD hN hU) hA]
      rfl
    · rw [if_neg hD]
      have hD' : substrCI (str "DEFAULT") tl = false := Bool.eq_false_iff.mpr hD
      have hsome := rule4At_render_isSome kw t c ty mid tl ht hc hty hmidS htlS hD'
      obtain ⟨⟨g, r⟩, hval⟩ := Option.isSome_iff_exists.mp hsome
      rw [finditer_rule4_single hval hA]
      rfl
  · exact fun ch hm hk => parse_notnull_severity _ fn ch hm hk

/-- Witness for C3 at `ALTER TABLE users ADD COLUMN age INT NOT NULL` with
an empty tail (no `DEFAULT`): one `not_null_no_default` change. -/
theorem C3_default_suppresses_not_null_witness :
    (Wordy (str "users") ∧ Wordy (str "age") ∧ Wordy (str "INT") ∧
     ';' ∉ [' '] ∧ '\n' ∉ [' '] ∧ ';' ∉ ([] : List Char) ∧ '\n' ∉ ([] : List Char) ∧
     substrCI (str "NOT") [] = false ∧ substrCI (str "NULL") [] = false ∧
     substrCI (str "ALTER")
       ((renderAddNN true (str "users") (str "age") (str "INT") [' '] []).drop 1)
       = false) ∧
    ((((parse_migrations
          (renderAddNN true (str "users") (str "age") (str "INT") [' '] [])
          (str "V4.sql")).filter
        (fun ch => ch.kind == str "not_null_no_default")).length
      = if substrCI (str "DEFAULT") [] = true then 0 else 1)
    ∧ ∀ ch ∈ parse_migrations
          (renderAddNN true (str "users") (str "age") (str "INT") [' '] [])
          (str "V4.sql"),
        ch.kind = str "not_null_no_default" → ch.severity = str "warning") :=
  ⟨⟨⟨by decide, by decide⟩, ⟨by decide, by decide⟩, ⟨by decide, by decide⟩,
    by decide, by decide, by decide, by decide,
    by decide, by decide, by decide⟩,
   C3_default_suppresses_not_null true (str "users") (str "age") (str "INT")
     [' '] [] (str "V4.sql") ⟨by decide, by decide⟩ ⟨by decide, by decide⟩
     ⟨by decide, by decide⟩ (by decide)
     (by decide) (by decide) (by decide) (by decide) (by decide) (by decide)⟩
